import Mathlib

/-!
Verification development for the freenet-lepus repository.

Shallow embedding of:
- the deposit-index contract (`src/contracts/deposit-index/src/lib.rs`,
  `types.rs`, `scp.rs`, `events.rs`): `validate_state`, `update_state`,
  `apply_proof`, `merge_deposit`, `hex_decode`/`hex_decode_32`,
  `check_quorum` / `count_org_signers`;
- the CWP hosting cache (`src/crates/core/src/ring/hosting/cache.rs`,
  `lepus` feature paths): scoring, `record_access`, `touch`,
  `sweep_expired`, `find_lowest_score_victim_with_retain`.

Modelling conventions:
- Rust `u32`/`u64`/`usize` counters are `Nat`; where overflow is reachable
  and relevant the wrap `% 2^64` / saturation is written explicitly.
- Rust `i128` is `Int` with the two's-complement wrap applied explicitly at
  the one arithmetic operation the contract performs (`i128add`).
- `f64` score arithmetic is modelled over `ℚ` (exact real-valued reading of
  the same formulas).
- Monotonic `tokio::time::Instant` values and `Duration`s are `ℚ`;
  `saturating_duration_since` is `max (a - b) 0`.
- Cryptographic / codec stages (base64, XDR, Ed25519, SHA-256) are not
  bit-level embedded: a `DepositProof` is represented by its `ledger_seq`
  together with the outcome that the deterministic stages 2-5 of
  `apply_proof` produce for it under the (fixed) contract parameters, and
  `check_quorum` is embedded from the point where the `valid_signers`
  list of (signer key, tx-set-hash) pairs has been collected.
- `HashMap` / `Vec` containers are association lists / lists; the
  deserialization outcome of a byte payload is passed as an `Option`
  (`none` = serde error).
-/

/-! ## Deposit-index: data model (`types.rs`) -/

/-- A single deposit entry (`types.rs` `DepositEntry`). `contract_id` is a
hex string; `total_deposited` is an `i128` (modelled as `Int`, wrapped
explicitly where arithmetic occurs); `last_ledger` is a `u32`. -/
structure DepositEntry where
  contract_id : String
  total_deposited : Int
  last_ledger : Nat
deriving DecidableEq, Repr

/-- The full contract state (`types.rs` `DepositMap`): a versioned deposit
map. `version` is a `u64`, `last_ledger_seq` a `u32`. Rust `Default`
gives `version = 0, last_ledger_seq = 0, deposits = []`. -/
structure DepositMap where
  version : Nat
  last_ledger_seq : Nat
  deposits : List DepositEntry
deriving DecidableEq, Repr

/-- The Rust `Default` value of `DepositMap`. -/
def DepositMap.empty : DepositMap := ⟨0, 0, []⟩

/-- Two's-complement wrap of an integer into the `i128` range, as Rust
release-mode `+=` on `i128` does on overflow. -/
def i128wrap (z : Int) : Int := (z + 2 ^ 127) % 2 ^ 128 - 2 ^ 127

/-- `i128` addition with two's-complement wrap (`total_deposited += amount`). -/
def i128add (a b : Int) : Int := i128wrap (a + b)

/-- `u64` saturating addition (`u64::saturating_add`). -/
def satAdd64 (a b : Nat) : Nat := min (a + b) (2 ^ 64 - 1)

/-- Lexicographic string comparison: Lean's `String` order is lexicographic
on unicode scalar values, which coincides with Rust's byte-wise
`String::cmp` because UTF-8 preserves code-point order. -/
def strCmp (a b : String) : Ordering :=
  if a < b then .lt else if a = b then .eq else .gt

/-! ## Rust `slice::binary_search_by` (used by `merge_deposit`) -/

/-- Core loop of Rust `binary_search_by` over index range `[left, right)`:
probe `mid = left + (right - left) / 2`, narrow on `Less`/`Greater`,
return `Sum.inl mid` on `Equal`, `Sum.inr left` when the range empties.
`fuel ≥ right - left` guarantees the loop runs to completion. -/
def binarySearchGo (f : Nat → Ordering) : Nat → Nat → Nat → Nat ⊕ Nat
  | 0, l, _ => Sum.inr l
  | fuel + 1, l, r =>
    if l < r then
      let mid := l + (r - l) / 2
      match f mid with
      | .lt => binarySearchGo f fuel (mid + 1) r
      | .gt => binarySearchGo f fuel l mid
      | .eq => Sum.inl mid
    else Sum.inr l

/-- Fallback entry used to read a list element at an index that is known to
be in bounds (`getD`). -/
def defaultEntry : DepositEntry := ⟨"", 0, 0⟩

/-- Rust `deposits.binary_search_by(|e| e.contract_id.cmp(&contract_id))`:
`Sum.inl idx` = found at `idx`, `Sum.inr idx` = insertion point `idx`. -/
def binarySearchDeposits (xs : List DepositEntry) (cid : String) : Nat ⊕ Nat :=
  binarySearchGo (fun i => strCmp (xs.getD i defaultEntry).contract_id cid) xs.length 0 xs.length

/-! ## `merge_deposit` and `apply_proof` (`lib.rs` lines 169-235) -/

/-- `merge_deposit` (`lib.rs` 211-235): binary-search the sorted list; on a
hit add the amount (`i128` wrap) and raise `last_ledger`; on a miss insert
a fresh entry at the returned sorted position. -/
def merge_deposit (map : DepositMap) (contract_id : String) (amount : Int)
    (ledger_seq : Nat) : DepositMap :=
  match binarySearchDeposits map.deposits contract_id with
  | Sum.inl idx =>
    let e := map.deposits.getD idx defaultEntry
    let e' : DepositEntry :=
      { e with
        total_deposited := i128add e.total_deposited amount
        last_ledger := if ledger_seq > e.last_ledger then ledger_seq else e.last_ledger }
    { map with deposits := map.deposits.set idx e' }
  | Sum.inr idx =>
    { map with deposits := map.deposits.insertIdx idx ⟨contract_id, amount, ledger_seq⟩ }

/-- A deposit event extracted from transaction metadata
(`events.rs` `ExtractedDeposit`). -/
structure ExtractedDeposit where
  contract_id : String
  amount : Int
  ledger_seq : Nat
deriving DecidableEq, Repr

/-- A deposit proof (`types.rs` `DepositProof`), represented by its
`ledger_seq` and by `pipeline`: the outcome of the deterministic proof
stages 2-5 of `apply_proof` (envelope decode, signature + quorum check,
tx-set hash binding, event extraction) for this proof under the fixed
contract parameters. `none` = some stage fails, `some ds` = the extracted
deposits. These stages are pure functions of the proof bytes and the
parameters (`scp.rs`, `hash_chain.rs`, `events.rs`), so representing a
proof by their outcome is faithful for the control flow of `apply_proof`. -/
structure DepositProof where
  ledger_seq : Nat
  pipeline : Option (List ExtractedDeposit)
deriving DecidableEq, Repr

/-- `apply_proof` (`lib.rs` 170-208). Returns `none` on a stage failure
(the caller silently skips the proof), otherwise the updated map and
whether it changed. Stage 1 (staleness gate) and the merge loop are
embedded directly; stages 2-5 are the `pipeline` field. -/
def apply_proof (proof : DepositProof) (map : DepositMap) : Option (DepositMap × Bool) :=
  if proof.ledger_seq ≤ map.last_ledger_seq then
    some (map, false)
  else
    match proof.pipeline with
    | none => none
    | some deposits =>
      if deposits.isEmpty then
        some ({ map with last_ledger_seq := proof.ledger_seq }, true)
      else
        let m' := deposits.foldl
          (fun m d => merge_deposit m d.contract_id d.amount d.ledger_seq) map
        some ({ m' with last_ledger_seq := proof.ledger_seq }, true)

/-! ## `update_state` (`lib.rs` 55-114) -/

/-- One inbound update (`UpdateData`). `delta none` / `stateUpd none` model
payload bytes whose serde deserialization fails (which aborts the whole
call); `stateUpd (some m)` models non-empty state bytes parsing to `m`;
`otherUpd` models the `_ => {}` arm (empty `State`, `StateAndDelta`, ...). -/
inductive UpdateData where
  | delta (proof : Option DepositProof)
  | stateUpd (incoming : Option DepositMap)
  | otherUpd
deriving DecidableEq, Repr

/-- The update loop of `update_state` (`lib.rs` 76-105): thread the map and
the `changed` flag through the updates in order. Delta: apply the proof,
silently ignoring `apply_proof` failures. State: accept iff strictly
higher version. Deserialization failures abort the call (`none`). -/
def update_state_core (map : DepositMap) (changed : Bool) :
    List UpdateData → Option (DepositMap × Bool)
  | [] => some (map, changed)
  | u :: us =>
    match u with
    | .delta none => none
    | .delta (some proof) =>
      match apply_proof proof map with
      | some (map', did_change) => update_state_core map' (changed || did_change) us
      | none => update_state_core map changed us
    | .stateUpd none => none
    | .stateUpd (some incoming) =>
      if incoming.version > map.version then
        update_state_core incoming true us
      else
        update_state_core map changed us
    | .otherUpd => update_state_core map changed us

/-- `map.version += 1` with the `u64` wrap that Rust release mode performs. -/
def bumpVersion (map : DepositMap) : DepositMap :=
  { map with version := (map.version + 1) % 2 ^ 64 }

/-- `update_state` (`lib.rs` 55-114): run the update loop from the current
map with `changed = false`; if anything changed, bump `version` by one at
the end. Parameter parsing and state (de)serialization are abstracted as
in the conventions above. -/
def update_state (map : DepositMap) (updates : List UpdateData) : Option DepositMap :=
  match update_state_core map false updates with
  | some (map', changed) => some (if changed then bumpVersion map' else map')
  | none => none

/-! ## Hex decoding (`types.rs` 72-91) -/

/-- Rust `char::to_digit(16)`: both cases of hex letters are accepted. -/
def hexDigit? (c : Char) : Option Nat :=
  if '0' ≤ c ∧ c ≤ '9' then some (c.toNat - '0'.toNat)
  else if 'a' ≤ c ∧ c ≤ 'f' then some (c.toNat - 'a'.toNat + 10)
  else if 'A' ≤ c ∧ c ≤ 'F' then some (c.toNat - 'A'.toNat + 10)
  else none

/-- Digit-accumulation loop of Rust `u8::from_str_radix(_, 16)` for the
positive / unsigned case: `acc * 16 + d` with an overflow check at 255. -/
def u8AccumPos : Nat → List Char → Option Nat
  | acc, [] => some acc
  | acc, c :: cs =>
    match hexDigit? c with
    | none => none
    | some d => if acc * 16 + d ≤ 255 then u8AccumPos (acc * 16 + d) cs else none

/-- Digit-accumulation loop of Rust `u8::from_str_radix` after a `-` sign on
an unsigned type: `acc * 16 - d` with a checked subtraction, so only
strings denoting zero succeed. -/
def u8AccumNeg : Nat → List Char → Option Nat
  | acc, [] => some acc
  | acc, c :: cs =>
    match hexDigit? c with
    | none => none
    | some d => if d ≤ acc * 16 then u8AccumNeg (acc * 16 - d) cs else none

/-- Rust `u8::from_str_radix(s, 16)`: an optional `+`/`-` sign followed by
at least one hex digit (either case), value fitting in `u8`; on `-` the
checked accumulation only accepts zero. -/
def u8FromStrRadix16 (cs : List Char) : Option Nat :=
  match cs with
  | [] => none
  | c :: rest =>
    if c = '+' then
      match rest with
      | [] => none
      | _ => u8AccumPos 0 rest
    else if c = '-' then
      match rest with
      | [] => none
      | _ => u8AccumNeg 0 rest
    else u8AccumPos 0 cs

/-- Pair-at-a-time decoding loop of `hex_decode` (`types.rs` 77-82): each
two-character chunk goes through `u8::from_str_radix(_, 16)`. -/
def hexDecodePairs : List Char → Option (List Nat)
  | [] => some []
  | c1 :: c2 :: rest =>
    match u8FromStrRadix16 [c1, c2] with
    | none => none
    | some b =>
      match hexDecodePairs rest with
      | none => none
      | some bs => some (b :: bs)
  | [_] => none

/-- `hex_decode` (`types.rs` 73-83): reject odd length, then decode byte
pairs. (The Rust code slices by byte index; this model walks characters,
which agrees on the ASCII inputs the contract deals in.) -/
def hex_decode (s : String) : Option (List Nat) :=
  if s.length % 2 ≠ 0 then none else hexDecodePairs s.data

/-- `hex_decode_32` (`types.rs` 86-91): decode and require exactly 32 bytes. -/
def hex_decode_32 (s : String) : Option (List Nat) :=
  match hex_decode s with
  | none => none
  | some bytes => if bytes.length = 32 then some bytes else none

/-! ## `validate_state` (`lib.rs` 19-53) -/

/-- Verdict of `validate_state`. -/
inductive ValidateResult where
  | Valid
  | Invalid
deriving DecidableEq, Repr

/-- The state bytes handed to `validate_state`, by deserialization outcome:
empty, non-empty but not a deposit map (serde error), or a parsed map. -/
inductive StateInput where
  | emptyState
  | malformed
  | parsed (map : DepositMap)
deriving DecidableEq, Repr

/-- First loop of `validate_state` (`lib.rs` 33-37): every adjacent pair
must be strictly increasing by `contract_id`. -/
def sortedPairsOk : List DepositEntry → Bool
  | [] => true
  | [_] => true
  | a :: b :: rest => (a.contract_id < b.contract_id : Bool) && sortedPairsOk (b :: rest)

/-- Second loop of `validate_state` (`lib.rs` 40-50): non-negative amount,
64-character id, id decodes to 32 bytes. -/
def entryOk (e : DepositEntry) : Bool :=
  (0 ≤ e.total_deposited : Bool) && (e.contract_id.length = 64 : Bool)
    && (hex_decode_32 e.contract_id).isSome

/-- `validate_state` (`lib.rs` 19-53): empty state is `Valid`; a parse error
is the only hard failure (`none`); otherwise run the two check loops and
report `Valid`/`Invalid`. -/
def validate_state (state : StateInput) : Option ValidateResult :=
  match state with
  | .emptyState => some .Valid
  | .malformed => none
  | .parsed map =>
    if sortedPairsOk map.deposits && map.deposits.all entryOk then
      some .Valid
    else
      some .Invalid

/-! ## Quorum check (`scp.rs` 85-194) -/

/-- A validator organization (`types.rs` `ValidatorOrg`). -/
structure ValidatorOrg where
  name : String
  validators : List String
deriving DecidableEq, Repr

/-- Contract parameters (`types.rs` `DepositIndexParams`). -/
structure DepositIndexParams where
  network_id : String
  organizations : List ValidatorOrg
  quorum_org_threshold : Nat
  hvym_contract_address : String
deriving DecidableEq, Repr

/-- `count_org_signers` (`scp.rs` 181-194): how many of the org's declared
validators (hex-decoded) appear among the valid signers; each declared
validator contributes at most one via the `any` membership test. -/
def count_org_signers (org : ValidatorOrg) (valid_signers : List (List Nat × List Nat)) : Nat :=
  org.validators.foldl
    (fun count vhex =>
      match hex_decode_32 vhex with
      | some vk => if valid_signers.any (fun sh => sh.1 = vk) then count + 1 else count
      | none => count)
    0

/-- The effective org threshold (`scp.rs` 143-147): the parameter when it is
non-zero, else `orgs * 2 / 3 + 1`. -/
def quorum_threshold (params : DepositIndexParams) : Nat :=
  if params.quorum_org_threshold = 0 then
    params.organizations.length * 2 / 3 + 1
  else
    params.quorum_org_threshold

/-- The org-majority count (`scp.rs` 149-156): orgs whose signer count
reaches `validators / 2 + 1`. -/
def orgs_with_majority (params : DepositIndexParams)
    (valid_signers : List (List Nat × List Nat)) : Nat :=
  params.organizations.foldl
    (fun acc org =>
      if count_org_signers org valid_signers ≥ org.validators.length / 2 + 1 then acc + 1
      else acc)
    0

/-- `check_quorum` (`scp.rs` 89-178) from the point where the
`valid_signers` list of (signer key, tx-set-hash) pairs has been collected
by Ed25519 verification (abstracted): fail on no valid signers, fail if
any signer disagrees with the first signer's hash, fail if too few orgs
have a majority, else return the consensus hash (standing in for the
re-extracted `StellarValue`). -/
def check_quorum (params : DepositIndexParams)
    (valid_signers : List (List Nat × List Nat)) : Option (List Nat) :=
  match valid_signers with
  | [] => none
  | s0 :: rest =>
    let consensus_hash := s0.2
    if (s0 :: rest).all (fun sh => sh.2 = consensus_hash) then
      if orgs_with_majority params (s0 :: rest) < quorum_threshold params then none
      else some consensus_hash
    else none

/-! ## CWP hosting cache (`cache.rs`, `lepus` feature paths) -/

/-- A hosted contract's key. The cache's tie-break compares
`key.id().as_bytes()`; the model identifies a key with that byte list. -/
abbrev ContractKey := List Nat

/-- `f64::max` over the exact rational model, in a form the kernel can
evaluate. -/
def qmax (a b : ℚ) : ℚ := if a ≤ b then b else a

/-- `f64::min` over the exact rational model, in a form the kernel can
evaluate. -/
def qmin (a b : ℚ) : ℚ := if a ≤ b then a else b

/-- CWP scoring configuration (`cache.rs` `CWPConfig`), over `ℚ`. -/
structure CWPConfig where
  commitment_weight : ℚ
  identity_weight : ℚ
  contribution_weight : ℚ
  recency_weight : ℚ
  commitment_density_target : ℚ
  contribution_target : ℚ
  recency_halflife_secs : ℚ
deriving DecidableEq, Repr

/-- The Rust `Default` CWP configuration (`cache.rs` 67-79). -/
def CWPConfig.default : CWPConfig :=
  { commitment_weight := 0.50
    identity_weight := 0.25
    contribution_weight := 0.15
    recency_weight := 0.10
    commitment_density_target := 0.001
    contribution_target := 1.5
    recency_halflife_secs := 604800 }

/-- Soroban commitment state (`cache.rs` `CommitmentState`). -/
structure CommitmentState where
  deposited_xlm : Nat
  last_oracle_check : Option ℚ
deriving DecidableEq, Repr

/-- The Rust `Default` commitment state. -/
def CommitmentState.default : CommitmentState := ⟨0, none⟩

/-- Identity verification state (`cache.rs` `IdentityState`). -/
structure IdentityState where
  creator_pubkey : Option (List Nat)
  creator_verified : Bool
  subscriber_pubkey : Option (List Nat)
  subscriber_verified : Bool
  recipient_pubkey : Option (List Nat)
deriving DecidableEq, Repr

/-- The Rust `Default` identity state. -/
def IdentityState.default : IdentityState := ⟨none, false, none, false, none⟩

/-- Type of access that adds/refreshes a contract (`cache.rs` `AccessType`). -/
inductive AccessType where
  | Get
  | Put
  | Subscribe
deriving DecidableEq, Repr

/-- Metadata about a hosted contract (`cache.rs` `HostedContract`, with the
`lepus` fields). `last_accessed` is an instant on the monotonic clock. -/
structure HostedContract where
  size_bytes : Nat
  last_accessed : ℚ
  access_type : AccessType
  commitment : CommitmentState
  identity : IdentityState
  bytes_served : Nat
  bytes_consumed : Nat
deriving DecidableEq, Repr

/-- Commitment sub-score (`cache.rs` 183-189):
`min(1, deposited_xlm / (size_bytes * density_target))`, 0 on a
non-positive denominator. -/
def HostedContract.commitment_score (hc : HostedContract) (config : CWPConfig) : ℚ :=
  let denominator := (hc.size_bytes : ℚ) * config.commitment_density_target
  if denominator ≤ 0 then 0
  else qmin ((hc.commitment.deposited_xlm : ℚ) / denominator) 1

/-- Identity sub-score (`cache.rs` 194-206):
`0.6 * creator_verified + 0.4 * subscriber_verified`. -/
def HostedContract.identity_score (hc : HostedContract) : ℚ :=
  (if hc.identity.creator_verified then (0.6 : ℚ) else 0)
    + (if hc.identity.subscriber_verified then (0.4 : ℚ) else 0)

/-- Contribution sub-score (`cache.rs` 211-215):
`min(1, (bytes_served / max(bytes_consumed, 1)) / target)`. -/
def HostedContract.contribution_score (hc : HostedContract) (config : CWPConfig) : ℚ :=
  let consumed : ℚ := ((max hc.bytes_consumed 1 : Nat) : ℚ)
  let ratio := (hc.bytes_served : ℚ) / consumed
  qmin (ratio / config.contribution_target) 1

/-- Recency sub-score (`cache.rs` 220-225):
`1 / (1 + elapsed / halflife)` with a saturating elapsed time. -/
def HostedContract.recency_score (hc : HostedContract) (now : ℚ) (config : CWPConfig) : ℚ :=
  let elapsed := qmax (now - hc.last_accessed) 0
  1 / (1 + elapsed / config.recency_halflife_secs)

/-- CWP persistence score (`cache.rs` 166-178): the weighted sum of the four
sub-scores, clamped into `[0, 1]`. -/
def HostedContract.persistence_score (hc : HostedContract) (now : ℚ) (config : CWPConfig) : ℚ :=
  let score := config.commitment_weight * hc.commitment_score config
    + config.identity_weight * hc.identity_score
    + config.contribution_weight * hc.contribution_score config
    + config.recency_weight * hc.recency_score now config
  qmin (qmax score 0) 1

/-- The hosting cache (`cache.rs` `HostingCache`). The `HashMap` of
contracts is an association list (keys distinct in every state the cache
builds); the time source is passed to each operation as `now`. -/
structure HostingCache where
  budget_bytes : Nat
  current_bytes : Nat
  min_ttl : ℚ
  lru_order : List ContractKey
  contracts : List (ContractKey × HostedContract)
  cwp_config : CWPConfig

/-- Elapsed time since an entry was last accessed
(`now.saturating_duration_since(last_accessed)`). -/
def entry_age (now : ℚ) (hc : HostedContract) : ℚ := qmax (now - hc.last_accessed) 0

/-- Rust byte-slice ordering (`as_bytes() < as_bytes()`): lexicographic,
with a strict prefix ordered first. -/
def byteLtB : List Nat → List Nat → Bool
  | [], [] => false
  | [], _ :: _ => true
  | _ :: _, [] => false
  | a :: as, b :: bs => decide (a < b) || (a == b && byteLtB as bs)

/-- The strict candidate ordering of `find_lowest_score_victim_with_retain`
(`cache.rs` 574-581) on `(score, last_accessed, key)`: lower score first,
then older `last_accessed`, then smaller key bytes. -/
def candLt (a b : ℚ × ℚ × ContractKey) : Bool :=
  decide (a.1 < b.1)
    || (a.1 == b.1
      && (decide (a.2.1 < b.2.1) || (a.2.1 == b.2.1 && byteLtB a.2.2 b.2.2)))

/-- The candidate triple the victim scan builds for an entry
(`cache.rs` 568-569). -/
def victimCand (c : HostingCache) (now : ℚ) (kv : ContractKey × HostedContract) :
    ℚ × ℚ × ContractKey :=
  (kv.2.persistence_score now c.cwp_config, kv.2.last_accessed, kv.1)

/-- One step of the victim scan (`cache.rs` 559-588): skip entries inside
`min_ttl` or held by `should_retain`; otherwise keep the smaller of the
current best and the candidate under `candLt` (the current best wins
ties). -/
def victimStep (c : HostingCache) (now : ℚ) (retain : ContractKey → Bool)
    (best : Option (ℚ × ℚ × ContractKey)) (kv : ContractKey × HostedContract) :
    Option (ℚ × ℚ × ContractKey) :=
  if entry_age now kv.2 < c.min_ttl then best
  else if retain kv.1 then best
  else
    let cand := victimCand c now kv
    match best with
    | none => some cand
    | some b => if candLt cand b then some cand else some b

/-- `find_lowest_score_victim_with_retain` (`cache.rs` 552-591): scan all
entries and return the key of the minimal eligible candidate, if any. -/
def find_lowest_score_victim_with_retain (c : HostingCache) (now : ℚ)
    (retain : ContractKey → Bool) : Option ContractKey :=
  (c.contracts.foldl (victimStep c now retain) none).map (fun t => t.2.2)

/-- `find_lowest_score_victim` (`cache.rs` 545-547): the retain-free scan. -/
def find_lowest_score_victim (c : HostingCache) (now : ℚ) : Option ContractKey :=
  find_lowest_score_victim_with_retain c now (fun _ => false)

/-- Result of recording a contract access (`cache.rs` `RecordAccessResult`). -/
structure RecordAccessResult where
  is_new : Bool
  evicted : List ContractKey
deriving DecidableEq, Repr

/-- Replace the entry bound to `key` in the association list (the effect of
mutating through `HashMap::get_mut`). -/
def replaceEntry (contracts : List (ContractKey × HostedContract)) (key : ContractKey)
    (hc' : HostedContract) : List (ContractKey × HostedContract) :=
  contracts.map (fun kv => if kv.1 = key then (kv.1, hc') else kv)

/-- Remove a key's binding (`HashMap::remove` plus the `lru_order.retain`). -/
def removeKey (c : HostingCache) (vk : ContractKey) (removed : HostedContract) : HostingCache :=
  { c with
    contracts := c.contracts.filter (fun kv => !(kv.1 == vk))
    current_bytes := c.current_bytes - removed.size_bytes
    lru_order := c.lru_order.filter (fun k => !(k == vk)) }

/-- The CWP eviction loop of `record_access` (`cache.rs` 365-383): while the
new size would leave the cache over budget (`u64` addition wraps in
release mode) and entries remain, evict the lowest-score victim; stop when
no eligible victim exists. `fuel` bounds the iteration count (each real
iteration removes one entry, so `contracts.length` suffices). -/
def evictLoopRA : Nat → HostingCache → ℚ → Nat → HostingCache × List ContractKey
  | 0, c, _, _ => (c, [])
  | fuel + 1, c, now, size_bytes =>
    if (c.current_bytes + size_bytes) % 2 ^ 64 > c.budget_bytes ∧ c.contracts ≠ [] then
      match find_lowest_score_victim c now with
      | some vk =>
        match c.contracts.lookup vk with
        | some removed =>
          let r := evictLoopRA fuel (removeKey c vk removed) now size_bytes
          (r.1, vk :: r.2)
        | none => evictLoopRA fuel c now size_bytes
      | none => (c, [])
    else (c, [])

/-- `record_access` (`cache.rs` 303-408, `lepus` eviction path): refresh an
existing entry in place (size accounting saturates, never evicts), or
evict-then-insert a new one. -/
def record_access (c : HostingCache) (now : ℚ) (key : ContractKey) (size_bytes : Nat)
    (access_type : AccessType) : HostingCache × RecordAccessResult :=
  match c.contracts.lookup key with
  | some existing =>
    let current' :=
      if existing.size_bytes ≠ size_bytes then
        satAdd64 c.current_bytes size_bytes - existing.size_bytes
      else c.current_bytes
    let e' := { existing with
      size_bytes := size_bytes, last_accessed := now, access_type := access_type }
    ({ c with
        current_bytes := current'
        contracts := replaceEntry c.contracts key e'
        lru_order := c.lru_order.filter (fun k => !(k == key)) ++ [key] },
      { is_new := false, evicted := [] })
  | none =>
    let r := evictLoopRA c.contracts.length c now size_bytes
    let c1 := r.1
    let evicted := r.2
    let contract : HostedContract :=
      { size_bytes := size_bytes, last_accessed := now, access_type := access_type,
        commitment := CommitmentState.default, identity := IdentityState.default,
        bytes_served := 0, bytes_consumed := 0 }
    ({ c1 with
        contracts := c1.contracts ++ [(key, contract)]
        lru_order := c1.lru_order ++ [key]
        current_bytes := satAdd64 c1.current_bytes size_bytes },
      { is_new := true, evicted := evicted })

/-- `touch` (`cache.rs` 415-422): refresh `last_accessed` and the LRU
position of an existing entry; a missing key is a no-op. -/
def touch (c : HostingCache) (now : ℚ) (key : ContractKey) : HostingCache :=
  match c.contracts.lookup key with
  | some existing =>
    { c with
      contracts := replaceEntry c.contracts key { existing with last_accessed := now }
      lru_order := c.lru_order.filter (fun k => !(k == key)) ++ [key] }
  | none => c

/-- The CWP sweep loop of `sweep_expired` (`cache.rs` 520-535): while over
budget and entries remain, evict the lowest-score victim that the retain
predicate does not hold; stop when none is eligible. -/
def sweepLoop : Nat → HostingCache → ℚ → (ContractKey → Bool) → HostingCache × List ContractKey
  | 0, c, _, _ => (c, [])
  | fuel + 1, c, now, retain =>
    if c.current_bytes > c.budget_bytes ∧ c.contracts ≠ [] then
      match find_lowest_score_victim_with_retain c now retain with
      | some vk =>
        match c.contracts.lookup vk with
        | some removed =>
          let r := sweepLoop fuel (removeKey c vk removed) now retain
          (r.1, vk :: r.2)
        | none => sweepLoop fuel c now retain
      | none => (c, [])
    else (c, [])

/-- `sweep_expired` (`cache.rs` 476-538, `lepus` path). -/
def sweep_expired (c : HostingCache) (now : ℚ) (retain : ContractKey → Bool) :
    HostingCache × List ContractKey :=
  sweepLoop c.contracts.length c now retain

/-! ## Deposit-map invariants and guarded reachability (for C1) -/

/-- Strictly-ascending order by `contract_id`, as a proposition. -/
def SortedById (l : List DepositEntry) : Prop :=
  l.Pairwise (fun a b => a.contract_id < b.contract_id)

/-- A deposit total that is non-negative and fits `i128` without wrapping. -/
def entryBounded (e : DepositEntry) : Bool :=
  decide (0 ≤ e.total_deposited) && decide (e.total_deposited < 2 ^ 127)

/-- The deposit-map well-formedness the spec asserts (decidable form):
strictly sorted and all totals in `[0, 2^127)`. -/
def InvB (m : DepositMap) : Bool :=
  sortedPairsOk m.deposits && m.deposits.all entryBounded

/-- The deposit-map well-formedness, as a proposition. -/
def MapInv (m : DepositMap) : Prop :=
  SortedById m.deposits ∧
    ∀ e ∈ m.deposits, 0 ≤ e.total_deposited ∧ e.total_deposited < 2 ^ 127

/-- Guard for one `merge_deposit`: the amount is non-negative and the
resulting total (looked up through the code's own binary search) stays
below `2^127`, so the `i128` addition cannot wrap. -/
def mergeGuardB (m : DepositMap) (d : ExtractedDeposit) : Bool :=
  decide (0 ≤ d.amount) &&
    (match binarySearchDeposits m.deposits d.contract_id with
     | Sum.inl idx =>
       decide ((m.deposits.getD idx defaultEntry).total_deposited + d.amount < 2 ^ 127)
     | Sum.inr _ => decide (d.amount < 2 ^ 127))

/-- Guard for a run of merges, threaded through the intermediate maps. -/
def MergesOkB : DepositMap → List ExtractedDeposit → Bool
  | _, [] => true
  | m, d :: ds =>
    mergeGuardB m d && MergesOkB (merge_deposit m d.contract_id d.amount d.ledger_seq) ds

/-- Guard for one delta: vacuous when the proof is stale or its pipeline
fails; otherwise its extracted deposits must merge without wrapping. -/
def deltaOkB (m : DepositMap) (p : DepositProof) : Bool :=
  if p.ledger_seq ≤ m.last_ledger_seq then true
  else
    match p.pipeline with
    | none => true
    | some ds => MergesOkB m ds

/-- The map after one update is processed (ignoring the `changed` flag; on
a skipped or failed step the map is unchanged). -/
def stepMapOk (m : DepositMap) (u : UpdateData) : DepositMap :=
  match u with
  | .delta (some p) =>
    match apply_proof p m with
    | some (m', _) => m'
    | none => m
  | .stateUpd (some incoming) => if incoming.version > m.version then incoming else m
  | _ => m

/-- Guard for one update: deltas must merge without wrapping; an accepted
state replacement must itself be well-formed. -/
def stepOkB (m : DepositMap) (u : UpdateData) : Bool :=
  match u with
  | .delta (some p) => deltaOkB m p
  | .stateUpd (some incoming) => if incoming.version > m.version then InvB incoming else true
  | _ => true

/-- Guard for a whole `update_state` call, threaded through the
intermediate maps. -/
def UpdatesOkB : DepositMap → List UpdateData → Bool
  | _, [] => true
  | m, u :: us => stepOkB m u && UpdatesOkB (stepMapOk m u) us

/-- States reachable from the empty map by guarded `update_state` calls:
every accepted state replacement is well-formed and every applied proof's
deposits merge without `i128` wrap. -/
inductive ReachableG : DepositMap → Prop where
  | init : ReachableG DepositMap.empty
  | step {m : DepositMap} {us : List UpdateData} {m' : DepositMap} :
    ReachableG m → UpdatesOkB m us = true → update_state m us = some m' → ReachableG m'

/-! ## Observables used by the claims -/

/-- Whether an update is a Delta (carries a deposit proof). -/
def IsDelta : UpdateData → Bool
  | .delta _ => true
  | _ => false

/-- Whether processing one update changes the map: a delta changes it iff
it is fresh and its pipeline succeeds (`apply_proof` returns `true`); a
state replacement changes it iff its version is strictly higher. -/
def stepChangedB (m : DepositMap) (u : UpdateData) : Bool :=
  match u with
  | .delta (some p) =>
    decide (p.ledger_seq > m.last_ledger_seq) && p.pipeline.isSome
  | .stateUpd (some incoming) => decide (incoming.version > m.version)
  | _ => false

/-- Whether any update in the list changes the map, threaded through the
intermediate maps. -/
def AnyChangedB : DepositMap → List UpdateData → Bool
  | _, [] => false
  | m, u :: us => stepChangedB m u || AnyChangedB (stepMapOk m u) us

/-- Eviction eligibility of a cache entry at time `now` (`cache.rs`
560-566): the age has reached `min_ttl` and the retain predicate lets it
go. -/
def eligibleB (c : HostingCache) (now : ℚ) (retain : ContractKey → Bool)
    (kv : ContractKey × HostedContract) : Bool :=
  !(decide (entry_age now kv.2 < c.min_ttl)) && !(retain kv.1)

/-! ## Helper lemmas: ordering and binary search -/

/-- `strCmp` answers `lt` exactly on strictly smaller strings. -/
theorem strCmp_lt_iff {a b : String} : strCmp a b = .lt ↔ a < b := by
  unfold strCmp
  by_cases h1 : a < b <;> by_cases h2 : a = b <;> simp [h1, h2]

/-- `strCmp` answers `eq` exactly on equal strings. -/
theorem strCmp_eq_iff {a b : String} : strCmp a b = .eq ↔ a = b := by
  unfold strCmp
  split_ifs with h1 h2
  · exact iff_of_false (by simp) (fun he => absurd h1 (by rw [he]; exact lt_irrefl b))
  · exact iff_of_true rfl h2
  · exact iff_of_false (by simp) h2

/-- `strCmp` answers `gt` exactly on strictly larger strings. -/
theorem strCmp_gt_iff {a b : String} : strCmp a b = .gt ↔ b < a := by
  unfold strCmp
  split_ifs with h1 h2
  · exact iff_of_false (by simp) (asymm h1)
  · exact iff_of_false (by simp) (fun hba => absurd hba (by rw [h2]; exact lt_irrefl b))
  · refine iff_of_true rfl ?_
    rcases lt_trichotomy a b with h | h | h
    · exact absurd h h1
    · exact absurd h h2
    · exact h

/-- The strict-ordering relation on deposit entries is transitive. -/
instance : IsTrans DepositEntry (fun a b => a.contract_id < b.contract_id) :=
  ⟨fun _ _ _ hab hbc => lt_trans hab hbc⟩

/-- The adjacent-pairs check of `validate_state` is the `Chain'` of the
strict order. -/
theorem sortedPairsOk_eq_chain' :
    ∀ l : List DepositEntry,
      sortedPairsOk l = true ↔ List.Chain' (fun a b => a.contract_id < b.contract_id) l
  | [] => by simp [sortedPairsOk]
  | [a] => by simp [sortedPairsOk]
  | a :: b :: rest => by
    rw [sortedPairsOk, List.chain'_cons, Bool.and_eq_true, decide_eq_true_iff,
      sortedPairsOk_eq_chain' (b :: rest)]

/-- The adjacent-pairs check of `validate_state` decides strict sortedness. -/
theorem sortedPairsOk_iff {l : List DepositEntry} :
    sortedPairsOk l = true ↔ SortedById l := by
  rw [sortedPairsOk_eq_chain', SortedById, List.chain'_iff_pairwise]

/-- Correctness of the Rust binary-search loop: starting from a range whose
outside is already classified, the loop either finds an `eq` index or
returns an insertion point that splits the whole list into a `lt` prefix
and a `gt` suffix. `f` must be monotone in the sense that `lt` is
downward closed and `gt` upward closed below `n`. -/
theorem binarySearchGo_spec (f : Nat → Ordering) (n : Nat)
    (mono_lt : ∀ i j, i ≤ j → j < n → f j = .lt → f i = .lt)
    (mono_gt : ∀ i j, i ≤ j → j < n → f i = .gt → f j = .gt) :
    ∀ fuel l r, l ≤ r → r ≤ n → r - l ≤ fuel →
      (∀ i, i < l → f i = .lt) →
      (∀ i, r ≤ i → i < n → f i = .gt) →
      (∀ m, binarySearchGo f fuel l r = Sum.inl m → m < n ∧ f m = .eq) ∧
        (∀ p, binarySearchGo f fuel l r = Sum.inr p →
          p ≤ n ∧ (∀ i, i < p → f i = .lt) ∧ (∀ i, p ≤ i → i < n → f i = .gt)) := by
  intro fuel
  induction fuel with
  | zero =>
    intro l r hlr hrn hfuel hlo hhi
    have hrl : r = l := by omega
    subst hrl
    constructor
    · intro m hm; simp [binarySearchGo] at hm
    · intro p hp
      simp only [binarySearchGo, Sum.inr.injEq] at hp
      subst hp
      exact ⟨by omega, hlo, hhi⟩
  | succ fuel ih =>
    intro l r hlr hrn hfuel hlo hhi
    by_cases hlt : l < r
    · have hmid_lt : l + (r - l) / 2 < r := by omega
      have hmid_ge : l ≤ l + (r - l) / 2 := by omega
      simp only [binarySearchGo, if_pos hlt]
      cases hf : f (l + (r - l) / 2) with
      | lt =>
        have := ih (l + (r - l) / 2 + 1) r (by omega) hrn (by omega)
          (fun i hi => by
            by_cases hil : i < l
            · exact hlo i hil
            · exact mono_lt i (l + (r - l) / 2) (by omega) (by omega) hf)
          hhi
        exact this
      | gt =>
        have := ih l (l + (r - l) / 2) (by omega) (by omega) (by omega) hlo
          (fun i hi hin => by
            by_cases hir : r ≤ i
            · exact hhi i hir hin
            · exact mono_gt (l + (r - l) / 2) i hi (by omega) hf)
        exact this
      | eq =>
        constructor
        · intro m hm
          simp only [Sum.inl.injEq] at hm
          subst hm
          exact ⟨by omega, hf⟩
        · intro p hp; simp at hp
    · simp only [binarySearchGo, if_neg hlt]
      have hrl : r = l := by omega
      subst hrl
      constructor
      · intro m hm; simp at hm
      · intro p hp
        simp only [Sum.inr.injEq] at hp
        subst hp
        exact ⟨by omega, hlo, hhi⟩

/-- On a strictly sorted list, the comparison against a fixed id is
downward closed at `lt`. -/
theorem sorted_cmp_mono_lt {xs : List DepositEntry} {cid : String} (hs : SortedById xs) :
    ∀ i j, i ≤ j → j < xs.length →
      strCmp (xs.getD j defaultEntry).contract_id cid = .lt →
      strCmp (xs.getD i defaultEntry).contract_id cid = .lt := by
  have hpw := List.pairwise_iff_getElem.mp hs
  intro i j hij hj hfj
  rcases eq_or_lt_of_le hij with rfl | hij'
  · exact hfj
  · have hi : i < xs.length := by omega
    rw [List.getD_eq_getElem _ _ hj] at hfj
    rw [List.getD_eq_getElem _ _ hi]
    rw [strCmp_lt_iff] at hfj ⊢
    exact lt_trans (hpw i j hi hj hij') hfj

/-- On a strictly sorted list, the comparison against a fixed id is upward
closed at `gt`. -/
theorem sorted_cmp_mono_gt {xs : List DepositEntry} {cid : String} (hs : SortedById xs) :
    ∀ i j, i ≤ j → j < xs.length →
      strCmp (xs.getD i defaultEntry).contract_id cid = .gt →
      strCmp (xs.getD j defaultEntry).contract_id cid = .gt := by
  have hpw := List.pairwise_iff_getElem.mp hs
  intro i j hij hj hfi
  rcases eq_or_lt_of_le hij with rfl | hij'
  · exact hfi
  · have hi : i < xs.length := by omega
    rw [List.getD_eq_getElem _ _ hi] at hfi
    rw [List.getD_eq_getElem _ _ hj]
    rw [strCmp_gt_iff] at hfi ⊢
    exact lt_trans hfi (hpw i j hi hj hij')

/-- On a strictly sorted list, a `Sum.inl` answer of the deposit binary
search points at an entry carrying exactly the searched id. -/
theorem binarySearchDeposits_found {xs : List DepositEntry} {cid : String} {idx : Nat}
    (hs : SortedById xs) (h : binarySearchDeposits xs cid = Sum.inl idx) :
    idx < xs.length ∧ (xs.getD idx defaultEntry).contract_id = cid := by
  have spec := binarySearchGo_spec
    (fun i => strCmp (xs.getD i defaultEntry).contract_id cid) xs.length
    (sorted_cmp_mono_lt hs) (sorted_cmp_mono_gt hs)
    xs.length 0 xs.length (by omega) (by omega) (by omega)
    (fun i hi => by omega) (fun i hi hin => by omega)
  have hfound := spec.1 idx h
  have h2 : strCmp (xs.getD idx defaultEntry).contract_id cid = .eq := hfound.2
  exact ⟨hfound.1, strCmp_eq_iff.mp h2⟩

/-- On a strictly sorted list, a `Sum.inr` answer of the deposit binary
search is a valid insertion point: everything before it is strictly below
the searched id and everything from it on is strictly above. -/
theorem binarySearchDeposits_insert {xs : List DepositEntry} {cid : String} {idx : Nat}
    (hs : SortedById xs) (h : binarySearchDeposits xs cid = Sum.inr idx) :
    idx ≤ xs.length ∧
      (∀ i, i < idx → ∀ hi : i < xs.length, xs[i].contract_id < cid) ∧
      (∀ i, idx ≤ i → ∀ hi : i < xs.length, cid < xs[i].contract_id) := by
  have spec := binarySearchGo_spec
    (fun i => strCmp (xs.getD i defaultEntry).contract_id cid) xs.length
    (sorted_cmp_mono_lt hs) (sorted_cmp_mono_gt hs)
    xs.length 0 xs.length (by omega) (by omega) (by omega)
    (fun i hi => by omega) (fun i hi hin => by omega)
  obtain ⟨hle, hlo, hhi⟩ := spec.2 idx h
  refine ⟨hle, fun i hi hilen => ?_, fun i hi hilen => ?_⟩
  · have h2 : strCmp (xs.getD i defaultEntry).contract_id cid = .lt := hlo i hi
    rw [List.getD_eq_getElem _ _ hilen] at h2
    exact strCmp_lt_iff.mp h2
  · have h2 : strCmp (xs.getD i defaultEntry).contract_id cid = .gt := hhi i hi hilen
    rw [List.getD_eq_getElem _ _ hilen] at h2
    exact strCmp_gt_iff.mp h2

/-! ## Helper lemmas: merge preservation -/

/-- The `i128` addition does not wrap when the operands are non-negative
and the sum stays below `2^127`. -/
theorem i128add_no_wrap {a b : Int} (ha : 0 ≤ a) (hb : 0 ≤ b) (hs : a + b < 2 ^ 127) :
    i128add a b = a + b := by
  unfold i128add i128wrap
  rw [Int.emod_eq_of_lt (by omega) (by omega)]
  omega

/-- `insertIdx` at an in-bounds position is splicing between `take` and
`drop`. -/
theorem insertIdx_eq_take_drop {α : Type} (a : α) :
    ∀ (p : Nat) (l : List α), p ≤ l.length → l.insertIdx p a = l.take p ++ a :: l.drop p
  | 0, l, _ => by simp
  | p + 1, [], h => by simp at h
  | p + 1, x :: xs, h => by
    rw [List.insertIdx_succ_cons, insertIdx_eq_take_drop a p xs (by simpa using h)]
    simp

/-- Overwriting an entry with one carrying the same id preserves strict
sortedness. -/
theorem sortedById_set {l : List DepositEntry} {idx : Nat} {e' : DepositEntry}
    (hs : SortedById l) (hidx : idx < l.length)
    (hid : e'.contract_id = l[idx].contract_id) :
    SortedById (l.set idx e') := by
  rw [SortedById, List.pairwise_iff_getElem] at hs ⊢
  intro i j hi hj hij
  rw [List.length_set] at hi hj
  rw [List.getElem_set, List.getElem_set]
  by_cases h1 : idx = i <;> by_cases h2 : idx = j
  · omega
  · rw [if_pos h1, if_neg h2, hid]
    exact hs idx j (h1 ▸ hi) hj (h1 ▸ hij)
  · rw [if_neg h1, if_pos h2, hid]
    exact hs i idx hi (h2 ▸ hj) (h2 ▸ hij)
  · rw [if_neg h1, if_neg h2]
    exact hs i j hi hj hij

/-- Inserting an entry at a position that splits the list into strictly
smaller and strictly larger ids preserves strict sortedness. -/
theorem sortedById_insert {l : List DepositEntry} {idx : Nat} {e' : DepositEntry}
    (hs : SortedById l) (hle : idx ≤ l.length)
    (hlo : ∀ i, i < idx → ∀ hi : i < l.length, l[i].contract_id < e'.contract_id)
    (hhi : ∀ i, idx ≤ i → ∀ hi : i < l.length, e'.contract_id < l[i].contract_id) :
    SortedById (l.insertIdx idx e') := by
  rw [insertIdx_eq_take_drop e' idx l hle, SortedById, List.pairwise_append]
  have hmem_take : ∀ b ∈ l.take idx, ∃ i, i < idx ∧ ∃ hi : i < l.length, l[i] = b := by
    intro b hb
    obtain ⟨i, hil, hbi⟩ := List.mem_iff_getElem.mp hb
    rw [List.length_take] at hil
    have hi : i < l.length := by omega
    refine ⟨i, by omega, hi, ?_⟩
    rw [← hbi, List.getElem_take]
  have hmem_drop : ∀ b ∈ l.drop idx, ∃ i, idx ≤ i ∧ ∃ hi : i < l.length, l[i] = b := by
    intro b hb
    obtain ⟨j, hjl, hbj⟩ := List.mem_iff_getElem.mp hb
    rw [List.length_drop] at hjl
    have hj : idx + j < l.length := by omega
    refine ⟨idx + j, by omega, hj, ?_⟩
    rw [← hbj, List.getElem_drop]
  refine ⟨?_, ?_, ?_⟩
  · exact hs.sublist (List.take_sublist idx l)
  · rw [List.pairwise_cons]
    refine ⟨?_, hs.sublist (List.drop_sublist idx l)⟩
    intro b hb
    obtain ⟨i, hge, hi, rfl⟩ := hmem_drop b hb
    exact hhi i hge hi
  · intro a ha b hb
    obtain ⟨i, hilt, hi, rfl⟩ := hmem_take a ha
    rcases List.mem_cons.mp hb with rfl | hb'
    · exact hlo i hilt hi
    · obtain ⟨j, hge, hj, rfl⟩ := hmem_drop b hb'
      exact lt_trans (hlo i hilt hi) (hhi j hge hj)

/-- One guarded `merge_deposit` preserves the deposit-map invariants. -/
theorem merge_preserves {m : DepositMap} (d : ExtractedDeposit)
    (hsor : SortedById m.deposits)
    (hbnd : ∀ e ∈ m.deposits, 0 ≤ e.total_deposited ∧ e.total_deposited < 2 ^ 127)
    (hg : mergeGuardB m d = true) :
    SortedById (merge_deposit m d.contract_id d.amount d.ledger_seq).deposits ∧
      ∀ e ∈ (merge_deposit m d.contract_id d.amount d.ledger_seq).deposits,
        0 ≤ e.total_deposited ∧ e.total_deposited < 2 ^ 127 := by
  unfold mergeGuardB at hg
  unfold merge_deposit
  cases hbs : binarySearchDeposits m.deposits d.contract_id with
  | inl idx =>
    rw [hbs] at hg
    rw [Bool.and_eq_true, decide_eq_true_iff, decide_eq_true_iff] at hg
    obtain ⟨hamt, hsum⟩ := hg
    obtain ⟨hidx, _hid⟩ := binarySearchDeposits_found hsor hbs
    have hgetD : m.deposits.getD idx defaultEntry = m.deposits[idx] :=
      List.getD_eq_getElem _ _ hidx
    have hmem : m.deposits[idx] ∈ m.deposits := List.getElem_mem hidx
    have hbnd_idx := hbnd _ hmem
    constructor
    · apply sortedById_set hsor hidx
      rw [← hgetD]
    · intro e he
      rcases List.mem_or_eq_of_mem_set he with he' | rfl
      · exact hbnd e he'
      · simp only
        rw [hgetD, i128add_no_wrap hbnd_idx.1 hamt (by rw [← hgetD]; omega)]
        rw [hgetD] at hsum
        omega
  | inr idx =>
    rw [hbs] at hg
    rw [Bool.and_eq_true, decide_eq_true_iff, decide_eq_true_iff] at hg
    obtain ⟨hamt, hlt⟩ := hg
    obtain ⟨hle, hlo, hhi⟩ := binarySearchDeposits_insert hsor hbs
    constructor
    · exact sortedById_insert hsor hle (fun i h hi => hlo i h hi) (fun i h hi => hhi i h hi)
    · intro e he
      rcases (List.mem_insertIdx hle).mp he with rfl | he'
      · exact ⟨hamt, hlt⟩
      · exact hbnd e he'

/-! ## Helper lemmas: invariant preservation through `update_state` -/

/-- `InvB` decides `MapInv`. -/
theorem InvB_iff {m : DepositMap} : InvB m = true ↔ MapInv m := by
  rw [InvB, Bool.and_eq_true, sortedPairsOk_iff, List.all_eq_true, MapInv]
  apply and_congr_right
  intro _
  apply forall_congr'
  intro e
  apply imp_congr_right
  intro _
  rw [entryBounded, Bool.and_eq_true, decide_eq_true_iff, decide_eq_true_iff]

/-- A guarded run of merges preserves the deposit-map invariants. -/
theorem mergeAll_preserves :
    ∀ (ds : List ExtractedDeposit) {m : DepositMap}, MapInv m → MergesOkB m ds = true →
      MapInv (ds.foldl (fun m d => merge_deposit m d.contract_id d.amount d.ledger_seq) m)
  | [], _, h, _ => h
  | d :: ds, m, h, hg => by
    rw [MergesOkB, Bool.and_eq_true] at hg
    have h' := merge_preserves d h.1 h.2 hg.1
    exact mergeAll_preserves ds ⟨h'.1, h'.2⟩ hg.2

/-- `merge_deposit` never touches `version`. -/
theorem merge_version (m : DepositMap) (cid : String) (amt : Int) (ls : Nat) :
    (merge_deposit m cid amt ls).version = m.version := by
  unfold merge_deposit
  cases binarySearchDeposits m.deposits cid <;> rfl

/-- A run of merges never touches `version`. -/
theorem mergeAll_version :
    ∀ (ds : List ExtractedDeposit) (m : DepositMap),
      (ds.foldl (fun m d => merge_deposit m d.contract_id d.amount d.ledger_seq) m).version
        = m.version
  | [], _ => rfl
  | d :: ds, m => by
    rw [List.foldl_cons, mergeAll_version ds _, merge_version]

/-- `apply_proof` never touches `version`. -/
theorem apply_proof_version {p : DepositProof} {m m' : DepositMap} {c : Bool}
    (h : apply_proof p m = some (m', c)) : m'.version = m.version := by
  unfold apply_proof at h
  split_ifs at h with hstale
  · simp at h
    rw [← h.1]
  · cases hp : p.pipeline with
    | none => rw [hp] at h; simp at h
    | some ds =>
      rw [hp] at h
      dsimp only at h
      split_ifs at h with hempty
      · simp at h
        rw [← h.1]
      · simp at h
        rw [← h.1]
        exact mergeAll_version ds m

/-- `apply_proof` preserves the deposit-map invariants under the delta
guard. -/
theorem apply_proof_preserves {p : DepositProof} {m m' : DepositMap} {c : Bool}
    (h : MapInv m) (hg : deltaOkB m p = true) (ha : apply_proof p m = some (m', c)) :
    MapInv m' := by
  unfold apply_proof at ha
  unfold deltaOkB at hg
  split_ifs at ha hg with hstale
  · simp at ha
    rw [← ha.1]
    exact h
  · cases hp : p.pipeline with
    | none => rw [hp] at ha; simp at ha
    | some ds =>
      rw [hp] at ha hg
      dsimp only at ha
      split_ifs at ha with hempty
      · simp at ha
        rw [← ha.1]
        exact ⟨h.1, h.2⟩
      · simp at ha
        rw [← ha.1]
        have := mergeAll_preserves ds h hg
        exact ⟨this.1, this.2⟩

/-- The update loop preserves the deposit-map invariants under the call
guard. -/
theorem core_preserves :
    ∀ (us : List UpdateData) {m : DepositMap} {chg : Bool} {m' : DepositMap} {chg' : Bool},
      MapInv m → UpdatesOkB m us = true → update_state_core m chg us = some (m', chg') →
      MapInv m'
  | [], m, chg, m', chg', h, _, hc => by
    simp [update_state_core] at hc
    rw [← hc.1]
    exact h
  | u :: us, m, chg, m', chg', h, hg, hc => by
    rw [UpdatesOkB, Bool.and_eq_true] at hg
    cases u with
    | delta po =>
      cases po with
      | none => simp [update_state_core] at hc
      | some p =>
        rw [update_state_core] at hc
        cases hap : apply_proof p m with
        | none =>
          rw [hap] at hc
          have hstep : stepMapOk m (UpdateData.delta (some p)) = m := by
            simp [stepMapOk, hap]
          rw [hstep] at hg
          exact core_preserves us h hg.2 hc
        | some md =>
          rw [hap] at hc
          have hstep : stepMapOk m (UpdateData.delta (some p)) = md.1 := by
            simp [stepMapOk, hap]
          rw [hstep] at hg
          have hinv : MapInv md.1 :=
            apply_proof_preserves h (by simpa [stepOkB] using hg.1) (by rw [hap])
          exact core_preserves us hinv hg.2 hc
    | stateUpd io =>
      cases io with
      | none => simp [update_state_core] at hc
      | some incoming =>
        rw [update_state_core] at hc
        by_cases hv : incoming.version > m.version
        · rw [if_pos hv] at hc
          have hstep : stepMapOk m (UpdateData.stateUpd (some incoming)) = incoming := by
            simp [stepMapOk, hv]
          rw [hstep] at hg
          have hinv : MapInv incoming := by
            have := hg.1
            rw [stepOkB, if_pos hv] at this
            exact InvB_iff.mp this
          exact core_preserves us hinv hg.2 hc
        · rw [if_neg hv] at hc
          have hstep : stepMapOk m (UpdateData.stateUpd (some incoming)) = m := by
            simp [stepMapOk, hv]
          rw [hstep] at hg
          exact core_preserves us h hg.2 hc
    | otherUpd =>
      rw [update_state_core] at hc
      have hstep : stepMapOk m UpdateData.otherUpd = m := rfl
      rw [hstep] at hg
      exact core_preserves us h hg.2 hc

/-- `update_state` preserves the deposit-map invariants under the call
guard. -/
theorem update_state_preserves {m : DepositMap} {us : List UpdateData} {m' : DepositMap}
    (h : MapInv m) (hg : UpdatesOkB m us = true) (hu : update_state m us = some m') :
    MapInv m' := by
  unfold update_state at hu
  cases hc : update_state_core m false us with
  | none => rw [hc] at hu; simp at hu
  | some r =>
    rw [hc] at hu
    simp at hu
    have hr := core_preserves us h hg hc
    rw [← hu]
    cases r.2 <;> simp [bumpVersion] <;> exact ⟨hr.1, hr.2⟩

/-- Every guarded-reachable deposit map satisfies the invariants. -/
theorem reachable_inv {m : DepositMap} (h : ReachableG m) : MapInv m := by
  induction h with
  | init => exact ⟨List.Pairwise.nil, by simp [DepositMap.empty]⟩
  | step _ hg hu ih => exact update_state_preserves ih hg hu

/-- A proof application that reports no change leaves the map untouched. -/
theorem apply_proof_false_eq {p : DepositProof} {m m' : DepositMap}
    (h : apply_proof p m = some (m', false)) : m' = m := by
  unfold apply_proof at h
  split_ifs at h with hstale
  · simp at h
    exact h.symm
  · cases hp : p.pipeline with
    | none => rw [hp] at h; simp at h
    | some ds =>
      rw [hp] at h
      dsimp only at h
      split_ifs at h with hempty <;> simp at h

/-- The change a proof application reports is exactly `stepChangedB`. -/
theorem apply_proof_changed {p : DepositProof} {m m' : DepositMap} {c : Bool}
    (h : apply_proof p m = some (m', c)) :
    c = stepChangedB m (UpdateData.delta (some p)) := by
  unfold apply_proof at h
  unfold stepChangedB
  split_ifs at h with hstale
  · simp at h
    have : ¬ m.last_ledger_seq < p.ledger_seq := by omega
    simp [this, h.2]
  · cases hp : p.pipeline with
    | none => rw [hp] at h; simp at h
    | some ds =>
      rw [hp] at h
      dsimp only at h
      have hlt : m.last_ledger_seq < p.ledger_seq := by omega
      split_ifs at h with hempty <;> simp at h <;> simp [hp, h.2, hlt]

/-- The `changed` flag only ever rises through the update loop. -/
theorem core_flag_mono :
    ∀ (us : List UpdateData) {m : DepositMap} {m' : DepositMap} {chg' : Bool},
      update_state_core m true us = some (m', chg') → chg' = true
  | [], m, m', chg', h => by
    simp [update_state_core] at h
    exact h.2
  | u :: us, m, m', chg', h => by
    cases u with
    | delta po =>
      cases po with
      | none => simp [update_state_core] at h
      | some p =>
        rw [update_state_core] at h
        cases hap : apply_proof p m with
        | none =>
          rw [hap] at h
          exact core_flag_mono us h
        | some md =>
          rw [hap] at h
          exact core_flag_mono us h
    | stateUpd io =>
      cases io with
      | none => simp [update_state_core] at h
      | some incoming =>
        rw [update_state_core] at h
        by_cases hv : incoming.version > m.version
        · rw [if_pos hv] at h
          exact core_flag_mono us h
        · rw [if_neg hv] at h
          exact core_flag_mono us h
    | otherUpd =>
      rw [update_state_core] at h
      exact core_flag_mono us h

/-- If the update loop reports no change, the map is unchanged. -/
theorem core_false_unchanged :
    ∀ (us : List UpdateData) {m : DepositMap} {m' : DepositMap},
      update_state_core m false us = some (m', false) → m' = m
  | [], m, m', h => by
    simp [update_state_core] at h
    exact h.symm
  | u :: us, m, m', h => by
    cases u with
    | delta po =>
      cases po with
      | none => simp [update_state_core] at h
      | some p =>
        rw [update_state_core] at h
        cases hap : apply_proof p m with
        | none =>
          rw [hap] at h
          exact core_false_unchanged us h
        | some md =>
          obtain ⟨ma, d⟩ := md
          rw [hap] at h
          dsimp only at h
          cases hd : d with
          | true =>
            rw [hd] at h
            exact absurd (core_flag_mono us h) (by simp)
          | false =>
            rw [hd] at h
            rw [hd] at hap
            have hm : ma = m := apply_proof_false_eq hap
            rw [core_false_unchanged us h, hm]
    | stateUpd io =>
      cases io with
      | none => simp [update_state_core] at h
      | some incoming =>
        rw [update_state_core] at h
        by_cases hv : incoming.version > m.version
        · rw [if_pos hv] at h
          exact absurd (core_flag_mono us h) (by simp)
        · rw [if_neg hv] at h
          exact core_false_unchanged us h
    | otherUpd =>
      rw [update_state_core] at h
      exact core_false_unchanged us h

/-- The update loop never lowers `version`. -/
theorem core_version_ge :
    ∀ (us : List UpdateData) {m : DepositMap} {chg : Bool} {m' : DepositMap} {chg' : Bool},
      update_state_core m chg us = some (m', chg') → m.version ≤ m'.version
  | [], m, chg, m', chg', h => by
    simp [update_state_core] at h
    rw [h.1]
  | u :: us, m, chg, m', chg', h => by
    cases u with
    | delta po =>
      cases po with
      | none => simp [update_state_core] at h
      | some p =>
        rw [update_state_core] at h
        cases hap : apply_proof p m with
        | none =>
          rw [hap] at h
          exact core_version_ge us h
        | some md =>
          rw [hap] at h
          have hv : md.1.version = m.version := apply_proof_version (show apply_proof p m = some (md.1, md.2) by rw [hap])
          have := core_version_ge us h
          omega
    | stateUpd io =>
      cases io with
      | none => simp [update_state_core] at h
      | some incoming =>
        rw [update_state_core] at h
        by_cases hv : incoming.version > m.version
        · rw [if_pos hv] at h
          have := core_version_ge us h
          omega
        · rw [if_neg hv] at h
          exact core_version_ge us h
    | otherUpd =>
      rw [update_state_core] at h
      exact core_version_ge us h

/-- Any version the update loop produces is the input's or that of some
state replacement appearing in the updates. -/
theorem core_version_provenance :
    ∀ (us : List UpdateData) {m : DepositMap} {chg : Bool} {m' : DepositMap} {chg' : Bool},
      update_state_core m chg us = some (m', chg') →
      m'.version = m.version ∨
        ∃ incoming, UpdateData.stateUpd (some incoming) ∈ us ∧ m'.version = incoming.version
  | [], m, chg, m', chg', h => by
    simp [update_state_core] at h
    left
    rw [h.1]
  | u :: us, m, chg, m', chg', h => by
    cases u with
    | delta po =>
      cases po with
      | none => simp [update_state_core] at h
      | some p =>
        rw [update_state_core] at h
        cases hap : apply_proof p m with
        | none =>
          rw [hap] at h
          rcases core_version_provenance us h with h1 | ⟨inc, hmem, h2⟩
          · exact Or.inl h1
          · exact Or.inr ⟨inc, List.mem_cons_of_mem _ hmem, h2⟩
        | some md =>
          rw [hap] at h
          have hv : md.1.version = m.version := apply_proof_version (show apply_proof p m = some (md.1, md.2) by rw [hap])
          rcases core_version_provenance us h with h1 | ⟨inc, hmem, h2⟩
          · exact Or.inl (by rw [h1, hv])
          · exact Or.inr ⟨inc, List.mem_cons_of_mem _ hmem, h2⟩
    | stateUpd io =>
      cases io with
      | none => simp [update_state_core] at h
      | some incoming =>
        rw [update_state_core] at h
        by_cases hv : incoming.version > m.version
        · rw [if_pos hv] at h
          rcases core_version_provenance us h with h1 | ⟨inc, hmem, h2⟩
          · exact Or.inr ⟨incoming, List.mem_cons_self _ _, h1⟩
          · exact Or.inr ⟨inc, List.mem_cons_of_mem _ hmem, h2⟩
        · rw [if_neg hv] at h
          rcases core_version_provenance us h with h1 | ⟨inc, hmem, h2⟩
          · exact Or.inl h1
          · exact Or.inr ⟨inc, List.mem_cons_of_mem _ hmem, h2⟩
    | otherUpd =>
      rw [update_state_core] at h
      rcases core_version_provenance us h with h1 | ⟨inc, hmem, h2⟩
      · exact Or.inl h1
      · exact Or.inr ⟨inc, List.mem_cons_of_mem _ hmem, h2⟩

/-- On a delta-only update list the loop leaves `version` untouched. -/
theorem core_delta_version :
    ∀ (us : List UpdateData) {m : DepositMap} {chg : Bool} {m' : DepositMap} {chg' : Bool},
      (∀ u ∈ us, IsDelta u = true) →
      update_state_core m chg us = some (m', chg') → m'.version = m.version
  | [], m, chg, m', chg', _, h => by
    simp [update_state_core] at h
    rw [h.1]
  | u :: us, m, chg, m', chg', hall, h => by
    cases u with
    | delta po =>
      cases po with
      | none => simp [update_state_core] at h
      | some p =>
        rw [update_state_core] at h
        cases hap : apply_proof p m with
        | none =>
          rw [hap] at h
          exact core_delta_version us (fun v hv => hall v (List.mem_cons_of_mem _ hv)) h
        | some md =>
          rw [hap] at h
          have hv : md.1.version = m.version := apply_proof_version (show apply_proof p m = some (md.1, md.2) by rw [hap])
          rw [core_delta_version us (fun v hv => hall v (List.mem_cons_of_mem _ hv)) h, hv]
    | stateUpd io =>
      exact absurd (hall _ (List.mem_cons_self _ _)) (by simp [IsDelta])
    | otherUpd =>
      exact absurd (hall _ (List.mem_cons_self _ _)) (by simp [IsDelta])

/-- The flag the update loop reports is the input flag or-ed with
`AnyChangedB`. -/
theorem core_changed_iff :
    ∀ (us : List UpdateData) {m : DepositMap} {chg : Bool} {m' : DepositMap} {chg' : Bool},
      update_state_core m chg us = some (m', chg') → chg' = (chg || AnyChangedB m us)
  | [], m, chg, m', chg', h => by
    simp [update_state_core] at h
    simp [AnyChangedB, h.2]
  | u :: us, m, chg, m', chg', h => by
    cases u with
    | delta po =>
      cases po with
      | none => simp [update_state_core] at h
      | some p =>
        rw [update_state_core] at h
        rw [AnyChangedB]
        cases hap : apply_proof p m with
        | none =>
          rw [hap] at h
          have hstep : stepMapOk m (UpdateData.delta (some p)) = m := by
            simp [stepMapOk, hap]
          have hpnone : p.pipeline = none := by
            unfold apply_proof at hap
            split_ifs at hap with hstale
            cases hp : p.pipeline with
            | none => rfl
            | some ds =>
              exfalso
              rw [hp] at hap
              dsimp only at hap
              split_ifs at hap
          have hchg : stepChangedB m (UpdateData.delta (some p)) = false := by
            simp [stepChangedB, hpnone]
          rw [hstep, hchg, Bool.false_or]
          exact core_changed_iff us h
        | some md =>
          rw [hap] at h
          have hstep : stepMapOk m (UpdateData.delta (some p)) = md.1 := by
            simp [stepMapOk, hap]
          have hchg : md.2 = stepChangedB m (UpdateData.delta (some p)) :=
            apply_proof_changed (show apply_proof p m = some (md.1, md.2) by rw [hap])
          rw [hstep, ← hchg]
          rw [core_changed_iff us h, Bool.or_assoc]
    | stateUpd io =>
      cases io with
      | none => simp [update_state_core] at h
      | some incoming =>
        rw [update_state_core] at h
        rw [AnyChangedB]
        have hstep : stepChangedB m (UpdateData.stateUpd (some incoming)) =
            decide (incoming.version > m.version) := rfl
        by_cases hv : incoming.version > m.version
        · rw [if_pos hv] at h
          have h2 : stepChangedB m (UpdateData.stateUpd (some incoming)) = true := by
            rw [hstep]
            exact decide_eq_true hv
          rw [h2, Bool.true_or, Bool.or_true]
          exact core_flag_mono us h
        · rw [if_neg hv] at h
          have h2 : stepChangedB m (UpdateData.stateUpd (some incoming)) = false := by
            rw [hstep]
            exact decide_eq_false hv
          have h3 : stepMapOk m (UpdateData.stateUpd (some incoming)) = m := by
            simp [stepMapOk, hv]
          rw [h2, Bool.false_or, h3]
          exact core_changed_iff us h
    | otherUpd =>
      rw [update_state_core] at h
      rw [AnyChangedB]
      have hstep : stepChangedB m UpdateData.otherUpd = false := rfl
      rw [hstep, Bool.false_or]
      exact core_changed_iff us h

/-! ## Helper lemmas: byte order and candidate order -/

/-- Byte order is irreflexive. -/
theorem byteLtB_irrefl : ∀ a : List Nat, byteLtB a a = false
  | [] => rfl
  | x :: xs => by simp [byteLtB, byteLtB_irrefl xs]

/-- Byte order is transitive. -/
theorem byteLtB_trans :
    ∀ (a b c : List Nat), byteLtB a b = true → byteLtB b c = true → byteLtB a c = true
  | [], [], _, h1, _ => by simp [byteLtB] at h1
  | [], _ :: _, [], _, h2 => by simp [byteLtB] at h2
  | [], _ :: _, _ :: _, _, _ => rfl
  | _ :: _, [], _, h1, _ => by simp [byteLtB] at h1
  | _ :: _, _ :: _, [], _, h2 => by simp [byteLtB] at h2
  | a :: as, b :: bs, c :: cs, h1, h2 => by
    simp only [byteLtB, Bool.or_eq_true, Bool.and_eq_true, decide_eq_true_iff,
      beq_iff_eq] at h1 h2 ⊢
    rcases h1 with h1 | ⟨hab, h1⟩ <;> rcases h2 with h2 | ⟨hbc, h2⟩
    · exact Or.inl (lt_trans h1 h2)
    · exact Or.inl (hbc ▸ h1)
    · exact Or.inl (hab ▸ h2)
    · exact Or.inr ⟨hab.trans hbc, byteLtB_trans as bs cs h1 h2⟩

/-- Byte order is trichotomous. -/
theorem byteLtB_trichotomy :
    ∀ (a b : List Nat), byteLtB a b = true ∨ byteLtB b a = true ∨ a = b
  | [], [] => Or.inr (Or.inr rfl)
  | [], _ :: _ => Or.inl rfl
  | _ :: _, [] => Or.inr (Or.inl rfl)
  | a :: as, b :: bs => by
    rcases Nat.lt_trichotomy a b with h | h | h
    · exact Or.inl (by simp [byteLtB, h])
    · rcases byteLtB_trichotomy as bs with h2 | h2 | h2
      · exact Or.inl (by simp [byteLtB, h, h2])
      · exact Or.inr (Or.inl (by simp [byteLtB, h, h2]))
      · exact Or.inr (Or.inr (by rw [h, h2]))
    · exact Or.inr (Or.inl (by simp [byteLtB, h]))

/-- `candLt` as a proposition: the lexicographic strict order on
`(score, last_accessed, key bytes)`. -/
theorem candLt_iff {a b : ℚ × ℚ × ContractKey} :
    candLt a b = true ↔
      a.1 < b.1 ∨
        (a.1 = b.1 ∧
          (a.2.1 < b.2.1 ∨ (a.2.1 = b.2.1 ∧ byteLtB a.2.2 b.2.2 = true))) := by
  simp [candLt]

/-- `candLt` is irreflexive. -/
theorem candLt_irrefl (a : ℚ × ℚ × ContractKey) : candLt a a = false := by
  simp [candLt, byteLtB_irrefl]

/-- `candLt` is transitive. -/
theorem candLt_trans {a b c : ℚ × ℚ × ContractKey}
    (h1 : candLt a b = true) (h2 : candLt b c = true) : candLt a c = true := by
  rw [candLt_iff] at h1 h2 ⊢
  rcases h1 with h1 | ⟨e1, h1⟩ <;> rcases h2 with h2 | ⟨e2, h2⟩
  · exact Or.inl (lt_trans h1 h2)
  · exact Or.inl (e2 ▸ h1)
  · exact Or.inl (e1 ▸ h2)
  · refine Or.inr ⟨e1.trans e2, ?_⟩
    rcases h1 with h1 | ⟨f1, h1⟩ <;> rcases h2 with h2 | ⟨f2, h2⟩
    · exact Or.inl (lt_trans h1 h2)
    · exact Or.inl (f2 ▸ h1)
    · exact Or.inl (f1 ▸ h2)
    · exact Or.inr ⟨f1.trans f2, byteLtB_trans _ _ _ h1 h2⟩

/-- Two candidates with distinct key bytes are strictly comparable. -/
theorem candLt_total_ne {a b : ℚ × ℚ × ContractKey} (hne : a.2.2 ≠ b.2.2) :
    candLt a b = true ∨ candLt b a = true := by
  rcases lt_trichotomy a.1 b.1 with h | h | h
  · exact Or.inl (candLt_iff.mpr (Or.inl h))
  · rcases lt_trichotomy a.2.1 b.2.1 with h2 | h2 | h2
    · exact Or.inl (candLt_iff.mpr (Or.inr ⟨h, Or.inl h2⟩))
    · rcases byteLtB_trichotomy a.2.2 b.2.2 with h3 | h3 | h3
      · exact Or.inl (candLt_iff.mpr (Or.inr ⟨h, Or.inr ⟨h2, h3⟩⟩))
      · exact Or.inr (candLt_iff.mpr (Or.inr ⟨h.symm, Or.inr ⟨h2.symm, h3⟩⟩))
      · exact absurd h3 hne
    · exact Or.inr (candLt_iff.mpr (Or.inr ⟨h.symm, Or.inl h2⟩))
  · exact Or.inr (candLt_iff.mpr (Or.inl h))

/-- Candidate order trichotomy. -/
theorem candLt_trichotomy (a b : ℚ × ℚ × ContractKey) :
    candLt a b = true ∨ candLt b a = true ∨ a = b := by
  rcases lt_trichotomy a.1 b.1 with h | h | h
  · exact Or.inl (candLt_iff.mpr (Or.inl h))
  · rcases lt_trichotomy a.2.1 b.2.1 with h2 | h2 | h2
    · exact Or.inl (candLt_iff.mpr (Or.inr ⟨h, Or.inl h2⟩))
    · rcases byteLtB_trichotomy a.2.2 b.2.2 with h3 | h3 | h3
      · exact Or.inl (candLt_iff.mpr (Or.inr ⟨h, Or.inr ⟨h2, h3⟩⟩))
      · exact Or.inr (Or.inl (candLt_iff.mpr (Or.inr ⟨h.symm, Or.inr ⟨h2.symm, h3⟩⟩)))
      · refine Or.inr (Or.inr ?_)
        obtain ⟨a1, a2, a3⟩ := a
        obtain ⟨b1, b2, b3⟩ := b
        simp only at h h2 h3
        rw [h, h2, h3]
    · exact Or.inr (Or.inl (candLt_iff.mpr (Or.inr ⟨h.symm, Or.inl h2⟩)))
  · exact Or.inr (Or.inl (candLt_iff.mpr (Or.inl h)))

/-- Candidate order asymmetry. -/
theorem candLt_asymm {a b : ℚ × ℚ × ContractKey} (h : candLt a b = true) :
    candLt b a = false := by
  by_contra hcon
  rw [Bool.not_eq_false] at hcon
  have := candLt_trans h hcon
  rw [candLt_irrefl] at this
  exact absurd this (by simp)

/-- Negative transitivity of the candidate order. -/
theorem candLt_neg_trans {a b c : ℚ × ℚ × ContractKey}
    (h1 : candLt a b = false) (h2 : candLt b c = false) : candLt a c = false := by
  by_contra hcon
  rw [Bool.not_eq_false] at hcon
  rcases candLt_trichotomy a b with hab | hab | rfl
  · rw [hab] at h1; exact absurd h1 (by simp)
  · rcases candLt_trichotomy b c with hbc | hbc | rfl
    · rw [hbc] at h2; exact absurd h2 (by simp)
    · have := candLt_trans hab hcon
      rw [this] at h2
      exact absurd h2 (by simp)
    · have := candLt_trans hcon hab
      rw [candLt_irrefl] at this
      exact absurd this (by simp)
  · rw [hcon] at h2; exact absurd h2 (by simp)

/-! ## Helper lemmas: the victim scan -/

/-- An ineligible entry leaves the scan accumulator untouched. -/
theorem victimStep_skip {c : HostingCache} {now : ℚ} {retain : ContractKey → Bool}
    {kv : ContractKey × HostedContract} (h : eligibleB c now retain kv = false)
    (acc : Option (ℚ × ℚ × ContractKey)) : victimStep c now retain acc kv = acc := by
  unfold victimStep
  rw [eligibleB] at h
  rcases Bool.and_eq_false_iff.mp h with h1 | h1
  · rw [if_pos (by simpa using h1)]
  · by_cases hage : entry_age now kv.2 < c.min_ttl
    · rw [if_pos hage]
    · rw [if_neg hage, if_pos (by simpa using h1)]

/-- An eligible entry updates the scan accumulator to the smaller of the
accumulator and its candidate. -/
theorem victimStep_keep {c : HostingCache} {now : ℚ} {retain : ContractKey → Bool}
    {kv : ContractKey × HostedContract} (h : eligibleB c now retain kv = true)
    (acc : Option (ℚ × ℚ × ContractKey)) :
    victimStep c now retain acc kv =
      match acc with
      | none => some (victimCand c now kv)
      | some b =>
        if candLt (victimCand c now kv) b then some (victimCand c now kv) else some b := by
  unfold victimStep
  rw [eligibleB, Bool.and_eq_true] at h
  rw [if_neg (by simpa using h.1), if_neg (by simpa using h.2)]

/-- Full characterization of the victim-scan fold: a `some` result is an
eligible entry's candidate (or the accumulator), no eligible candidate of
the list is strictly below it, and it is not strictly below the
accumulator; a `none` result means the accumulator was `none` and nothing
was eligible. -/
theorem victim_fold_spec (c : HostingCache) (now : ℚ) (retain : ContractKey → Bool) :
    ∀ (l : List (ContractKey × HostedContract)) (acc : Option (ℚ × ℚ × ContractKey)),
      (∀ b, l.foldl (victimStep c now retain) acc = some b →
        ((∃ kv ∈ l, eligibleB c now retain kv = true ∧ b = victimCand c now kv) ∨ acc = some b) ∧
        (∀ kv ∈ l, eligibleB c now retain kv = true →
          candLt (victimCand c now kv) b = false) ∧
        (∀ a, acc = some a → candLt a b = false)) ∧
      (l.foldl (victimStep c now retain) acc = none →
        acc = none ∧ ∀ kv ∈ l, eligibleB c now retain kv = false)
  | [], acc => by
    constructor
    · intro b hb
      simp only [List.foldl_nil] at hb
      refine ⟨Or.inr hb, by simp, ?_⟩
      intro a ha
      rw [hb] at ha
      injection ha with ha
      rw [ha]
      exact candLt_irrefl a
    · intro hb
      simp only [List.foldl_nil] at hb
      exact ⟨hb, by simp⟩
  | kv :: l, acc => by
    rw [List.foldl_cons]
    by_cases helig : eligibleB c now retain kv = true
    · rw [victimStep_keep helig]
      cases acc with
      | none =>
        dsimp only
        constructor
        · intro b hb
          obtain ⟨hmem, hmin, haccp⟩ := (victim_fold_spec c now retain l _).1 b hb
          have hkvb : candLt (victimCand c now kv) b = false := haccp _ rfl
          refine ⟨?_, ?_, ?_⟩
          · rcases hmem with ⟨kv', hkv', he', hb'⟩ | hb'
            · exact Or.inl ⟨kv', List.mem_cons_of_mem _ hkv', he', hb'⟩
            · injection hb' with hb'
              exact Or.inl ⟨kv, List.mem_cons_self _ _, helig, hb'.symm⟩
          · intro kv' hkv' he'
            rcases List.mem_cons.mp hkv' with rfl | hkv'
            · exact hkvb
            · exact hmin kv' hkv' he'
          · intro a ha
            exact absurd ha (by simp)
        · intro hb
          have := ((victim_fold_spec c now retain l _).2 hb).1
          exact absurd this (by simp)
      | some a0 =>
        dsimp only
        by_cases hlt : candLt (victimCand c now kv) a0 = true
        · rw [if_pos hlt]
          constructor
          · intro b hb
            obtain ⟨hmem, hmin, haccp⟩ := (victim_fold_spec c now retain l _).1 b hb
            have hkvb : candLt (victimCand c now kv) b = false := haccp _ rfl
            refine ⟨?_, ?_, ?_⟩
            · rcases hmem with ⟨kv', hkv', he', hb'⟩ | hb'
              · exact Or.inl ⟨kv', List.mem_cons_of_mem _ hkv', he', hb'⟩
              · injection hb' with hb'
                exact Or.inl ⟨kv, List.mem_cons_self _ _, helig, hb'.symm⟩
            · intro kv' hkv' he'
              rcases List.mem_cons.mp hkv' with rfl | hkv'
              · exact hkvb
              · exact hmin kv' hkv' he'
            · intro a ha
              injection ha with ha
              subst ha
              by_contra hcon
              rw [Bool.not_eq_false] at hcon
              have := candLt_trans hlt hcon
              rw [this] at hkvb
              exact absurd hkvb (by simp)
          · intro hb
            have := ((victim_fold_spec c now retain l _).2 hb).1
            exact absurd this (by simp)
        · rw [if_neg hlt]
          have hkva0 : candLt (victimCand c now kv) a0 = false := by simpa using hlt
          constructor
          · intro b hb
            obtain ⟨hmem, hmin, haccp⟩ := (victim_fold_spec c now retain l _).1 b hb
            have ha0b : candLt a0 b = false := haccp _ rfl
            refine ⟨?_, ?_, ?_⟩
            · rcases hmem with ⟨kv', hkv', he', hb'⟩ | hb'
              · exact Or.inl ⟨kv', List.mem_cons_of_mem _ hkv', he', hb'⟩
              · exact Or.inr hb'
            · intro kv' hkv' he'
              rcases List.mem_cons.mp hkv' with rfl | hkv'
              · exact candLt_neg_trans hkva0 ha0b
              · exact hmin kv' hkv' he'
            · intro a ha
              injection ha with ha
              subst ha
              exact ha0b
          · intro hb
            have := ((victim_fold_spec c now retain l _).2 hb).1
            exact absurd this (by simp)
    · rw [victimStep_skip (by simpa using helig)]
      constructor
      · intro b hb
        obtain ⟨hmem, hmin, haccp⟩ := (victim_fold_spec c now retain l acc).1 b hb
        refine ⟨?_, ?_, haccp⟩
        · rcases hmem with ⟨kv', hkv', he', hb'⟩ | hb'
          · exact Or.inl ⟨kv', List.mem_cons_of_mem _ hkv', he', hb'⟩
          · exact Or.inr hb'
        · intro kv' hkv' he'
          rcases List.mem_cons.mp hkv' with rfl | hkv'
          · exact absurd he' (by simpa using helig)
          · exact hmin kv' hkv' he'
      · intro hb
        obtain ⟨hacc, hall⟩ := (victim_fold_spec c now retain l acc).2 hb
        refine ⟨hacc, ?_⟩
        intro kv' hkv'
        rcases List.mem_cons.mp hkv' with rfl | hkv'
        · simpa using helig
        · exact hall kv' hkv'

/-- A scan over only ineligible entries returns its accumulator. -/
theorem victim_fold_skip_all {c : HostingCache} {now : ℚ} {retain : ContractKey → Bool} :
    ∀ {l : List (ContractKey × HostedContract)} (acc : Option (ℚ × ℚ × ContractKey)),
      (∀ kv ∈ l, eligibleB c now retain kv = false) →
      l.foldl (victimStep c now retain) acc = acc
  | [], _, _ => rfl
  | kv :: l, acc, h => by
    rw [List.foldl_cons, victimStep_skip (h kv (List.mem_cons_self _ _))]
    exact victim_fold_skip_all acc (fun kv' hkv' => h kv' (List.mem_cons_of_mem _ hkv'))

/-- A `some` answer of the victim scan is an eligible entry of the cache
whose candidate is not strictly above any other eligible candidate. -/
theorem find_victim_mem {c : HostingCache} {now : ℚ} {retain : ContractKey → Bool}
    {vk : ContractKey}
    (h : find_lowest_score_victim_with_retain c now retain = some vk) :
    ∃ hc, (vk, hc) ∈ c.contracts ∧ eligibleB c now retain (vk, hc) = true ∧
      ∀ kv ∈ c.contracts, eligibleB c now retain kv = true →
        candLt (victimCand c now kv) (victimCand c now (vk, hc)) = false := by
  unfold find_lowest_score_victim_with_retain at h
  rw [Option.map_eq_some'] at h
  obtain ⟨b, hb, hbk⟩ := h
  obtain ⟨hmem, hmin, _⟩ := (victim_fold_spec c now retain c.contracts none).1 b hb
  rcases hmem with ⟨kv0, hkv0, helig0, hb0⟩ | hacc
  · have hfst : kv0.1 = vk := by
      rw [← hbk, hb0]
      rfl
    refine ⟨kv0.2, ?_, ?_, ?_⟩
    · rw [← hfst]
      exact hkv0
    · rw [← hfst]
      exact helig0
    · intro kv hkv he
      have hcand : victimCand c now (vk, kv0.2) = b := by
        rw [hb0]
        unfold victimCand
        rw [hfst]
      rw [hcand]
      exact hmin kv hkv he
  · exact absurd hacc (by simp)

/-- A `none` answer of the victim scan means no entry is eligible. -/
theorem find_victim_none {c : HostingCache} {now : ℚ} {retain : ContractKey → Bool}
    (h : find_lowest_score_victim_with_retain c now retain = none) :
    ∀ kv ∈ c.contracts, eligibleB c now retain kv = false := by
  unfold find_lowest_score_victim_with_retain at h
  rw [Option.map_eq_none'] at h
  exact ((victim_fold_spec c now retain c.contracts none).2 h).2

/-! ## Helper lemmas: association-list lookups and the eviction loops -/

/-- A successful lookup is a membership. -/
theorem lookup_some_mem :
    ∀ {l : List (ContractKey × HostedContract)} {k : ContractKey} {v : HostedContract},
      l.lookup k = some v → (k, v) ∈ l
  | [], _, _, h => by simp [List.lookup] at h
  | x :: xs, k, v, h => by
    cases x with
    | mk a b =>
      by_cases hk : k = a
      · subst hk
        simp [List.lookup] at h
        rw [← h]
        exact List.mem_cons_self _ _
      · have hba : (k == a) = false := by simpa using hk
        rw [List.lookup, hba] at h
        exact List.mem_cons_of_mem _ (lookup_some_mem h)

/-- Looking up a key just appended behind keys that miss it. -/
theorem lookup_append_singleton :
    ∀ {l : List (ContractKey × HostedContract)} {k : ContractKey} {v : HostedContract},
      l.lookup k = none → (l ++ [(k, v)]).lookup k = some v
  | [], k, v, _ => by simp [List.lookup]
  | x :: xs, k, v, h => by
    cases x with
    | mk a b =>
      by_cases hk : k = a
      · subst hk
        simp [List.lookup] at h
      · have hba : (k == a) = false := by simpa using hk
        rw [List.lookup, hba] at h
        rw [List.cons_append, List.lookup, hba]
        exact lookup_append_singleton h

/-- Replacing a present key's entry changes exactly that key's lookup. -/
theorem lookup_replaceEntry_self :
    ∀ {l : List (ContractKey × HostedContract)} {key : ContractKey}
      {v hc' : HostedContract}, l.lookup key = some v →
      (replaceEntry l key hc').lookup key = some hc'
  | [], _, _, _, h => by simp [List.lookup] at h
  | x :: xs, key, v, hc', h => by
    cases x with
    | mk a b =>
      by_cases hk : key = a
      · subst hk
        rw [replaceEntry, List.map_cons, if_pos rfl]
        simp [List.lookup]
      · have hba : (key == a) = false := by simpa using hk
        rw [List.lookup, hba] at h
        rw [replaceEntry, List.map_cons, if_neg (by simpa using Ne.symm hk)]
        rw [List.lookup, hba]
        exact lookup_replaceEntry_self h

/-- Replacing one key's entry leaves other keys' lookups unchanged. -/
theorem lookup_replaceEntry_ne :
    ∀ {l : List (ContractKey × HostedContract)} {key k' : ContractKey}
      {hc' : HostedContract}, k' ≠ key →
      (replaceEntry l key hc').lookup k' = l.lookup k'
  | [], _, _, _, _ => rfl
  | x :: xs, key, k', hc', hne => by
    cases x with
    | mk a b =>
      by_cases hk : a = key
      · subst hk
        have hba : (k' == a) = false := by simpa using hne
        rw [replaceEntry, List.map_cons, if_pos rfl]
        rw [List.lookup, List.lookup, hba]
        exact lookup_replaceEntry_ne hne
      · rw [replaceEntry, List.map_cons, if_neg (by simpa using hk)]
        rw [List.lookup, List.lookup]
        by_cases hk' : k' = a
        · have hba : (k' == a) = true := by simpa using hk'
          rw [hba]
        · have hba : (k' == a) = false := by simpa using hk'
          rw [hba]
          exact lookup_replaceEntry_ne hne

/-- Specialization of the victim-scan membership fact to the retain-free
scan used by `record_access`. -/
theorem find_victim_mem_noretain {c : HostingCache} {now : ℚ} {vk : ContractKey}
    (h : find_lowest_score_victim c now = some vk) :
    ∃ hc, (vk, hc) ∈ c.contracts ∧ eligibleB c now (fun _ => false) (vk, hc) = true ∧
      ∀ kv ∈ c.contracts, eligibleB c now (fun _ => false) kv = true →
        candLt (victimCand c now kv) (victimCand c now (vk, hc)) = false := by
  have h' : find_lowest_score_victim_with_retain c now (fun _ => false) = some vk := h
  exact find_victim_mem h'

/-- An eligible entry has reached `min_ttl` and is released by the retain
predicate. -/
theorem eligibleB_age {c : HostingCache} {now : ℚ} {retain : ContractKey → Bool}
    {kv : ContractKey × HostedContract} (h : eligibleB c now retain kv = true) :
    c.min_ttl ≤ entry_age now kv.2 := by
  rw [eligibleB, Bool.and_eq_true] at h
  have := h.1
  rw [Bool.not_eq_true'] at this
  rw [decide_eq_false_iff_not] at this
  exact le_of_not_lt this

/-- A victim reported by the retain-aware scan is a present entry whose age
has reached `min_ttl`. -/
theorem find_victim_retain_safe {c : HostingCache} {now : ℚ} {retain : ContractKey → Bool}
    {vk : ContractKey} (h : find_lowest_score_victim_with_retain c now retain = some vk) :
    ∃ hc, (vk, hc) ∈ c.contracts ∧ c.min_ttl ≤ entry_age now hc := by
  have h2 := find_victim_mem h
  obtain ⟨hc, hmem, helig, hmin⟩ := h2
  have hage := eligibleB_age helig
  refine ⟨hc, hmem, ?_⟩
  exact hage

/-- A victim reported by the retain-free scan is a present entry whose age
has reached `min_ttl`. -/
theorem find_victim_safe {c : HostingCache} {now : ℚ} {vk : ContractKey}
    (h : find_lowest_score_victim c now = some vk) :
    ∃ hc, (vk, hc) ∈ c.contracts ∧ c.min_ttl ≤ entry_age now hc := by
  have h' : find_lowest_score_victim_with_retain c now (fun _ => false) = some vk := h
  exact find_victim_retain_safe h'

/-- Every key evicted by the admission eviction loop was an entry of the
starting cache whose age had reached `min_ttl`. -/
theorem evictLoopRA_evicted_safe :
    ∀ (fuel : Nat) (c : HostingCache) (now : ℚ) (size : Nat) {k : ContractKey},
      k ∈ (evictLoopRA fuel c now size).2 →
      ∃ hc, (k, hc) ∈ c.contracts ∧ c.min_ttl ≤ entry_age now hc
  | 0, c, now, size, k, hk => by simp [evictLoopRA] at hk
  | fuel + 1, c, now, size, k, hk => by
    rw [evictLoopRA] at hk
    split_ifs at hk with hcond
    · split at hk
      next vk hv =>
        split at hk
        next removed hl =>
          rcases List.mem_cons.mp hk with rfl | hk3
          · exact find_victim_safe hv
          · obtain ⟨hc, hmem, hage⟩ := evictLoopRA_evicted_safe fuel _ now size hk3
            have hmem2 : (k, hc) ∈ c.contracts := (List.mem_filter.mp hmem).1
            refine ⟨hc, hmem2, ?_⟩
            exact hage
        next hl =>
          exact evictLoopRA_evicted_safe fuel c now size hk
      next hv =>
        simp at hk
    · simp at hk

/-- Every key evicted by the sweep loop was an entry of the starting cache
whose age had reached `min_ttl`. -/
theorem sweepLoop_evicted_safe :
    ∀ (fuel : Nat) (c : HostingCache) (now : ℚ) (retain : ContractKey → Bool) {k : ContractKey},
      k ∈ (sweepLoop fuel c now retain).2 →
      ∃ hc, (k, hc) ∈ c.contracts ∧ c.min_ttl ≤ entry_age now hc
  | 0, c, now, retain, k, hk => by simp [sweepLoop] at hk
  | fuel + 1, c, now, retain, k, hk => by
    rw [sweepLoop] at hk
    split_ifs at hk with hcond
    · split at hk
      next vk hv =>
        split at hk
        next removed hl =>
          rcases List.mem_cons.mp hk with rfl | hk3
          · exact find_victim_retain_safe hv
          · obtain ⟨hc, hmem, hage⟩ := sweepLoop_evicted_safe fuel _ now retain hk3
            have hmem2 : (k, hc) ∈ c.contracts := (List.mem_filter.mp hmem).1
            refine ⟨hc, hmem2, ?_⟩
            exact hage
        next hl =>
          exact sweepLoop_evicted_safe fuel c now retain hk
      next hv =>
        simp at hk
    · simp at hk

/-- When every entry is inside `min_ttl`, the retain-free victim scan finds
nothing. -/
theorem find_victim_all_protected {c : HostingCache} {now : ℚ}
    (h : ∀ kv ∈ c.contracts, entry_age now kv.2 < c.min_ttl) :
    find_lowest_score_victim c now = none := by
  unfold find_lowest_score_victim find_lowest_score_victim_with_retain
  rw [victim_fold_skip_all none ?_]
  · rfl
  · intro kv hkv
    rw [eligibleB]
    simp [h kv hkv]

/-- When every entry is inside `min_ttl`, the admission eviction loop does
nothing. -/
theorem evictLoopRA_all_protected {c : HostingCache} {now : ℚ} {size : Nat}
    (h : ∀ kv ∈ c.contracts, entry_age now kv.2 < c.min_ttl) :
    ∀ fuel, evictLoopRA fuel c now size = (c, [])
  | 0 => rfl
  | fuel + 1 => by
    rw [evictLoopRA]
    split_ifs with hcond
    · rw [find_victim_all_protected h]
    · rfl

/-- When every entry is inside `min_ttl`, the retain-free victim scan finds
nothing. -/
theorem find_victim_all_protected2 {c : HostingCache} {now : ℚ}
    (h : ∀ kv ∈ c.contracts, entry_age now kv.2 < c.min_ttl) :
    find_lowest_score_victim c now = none := find_victim_all_protected h

/-! ## Claim theorems -/

/-- C2: TTL protection. (i) No `record_access` call evicts an entry whose
age is under `min_ttl`: every evicted key was present with age at least
`min_ttl`. (ii) The same for `sweep_expired`. (iii) When every entry is
inside `min_ttl`, `record_access` on a missing key still admits it,
evicts nothing, and lets `current_bytes` grow to
`satAdd64 current_bytes size` even past the budget. -/
theorem c2_ttl_protection :
    (∀ (c : HostingCache) (now : ℚ) (key : ContractKey) (size : Nat) (a : AccessType)
      (k : ContractKey), k ∈ (record_access c now key size a).2.evicted →
        ∃ hc, (k, hc) ∈ c.contracts ∧ c.min_ttl ≤ entry_age now hc) ∧
    (∀ (c : HostingCache) (now : ℚ) (retain : ContractKey → Bool) (k : ContractKey),
      k ∈ (sweep_expired c now retain).2 →
        ∃ hc, (k, hc) ∈ c.contracts ∧ c.min_ttl ≤ entry_age now hc) ∧
    (∀ (c : HostingCache) (now : ℚ) (key : ContractKey) (size : Nat) (a : AccessType),
      (∀ kv ∈ c.contracts, entry_age now kv.2 < c.min_ttl) →
      c.contracts.lookup key = none →
      (record_access c now key size a).2.is_new = true ∧
        (record_access c now key size a).2.evicted = [] ∧
        (record_access c now key size a).1.contracts.lookup key =
          some ⟨size, now, a, CommitmentState.default, IdentityState.default, 0, 0⟩ ∧
        (record_access c now key size a).1.current_bytes =
          satAdd64 c.current_bytes size) := by
  refine ⟨?_, ?_, ?_⟩
  · intro c now key size a k hk
    unfold record_access at hk
    cases hl : c.contracts.lookup key with
    | some existing =>
      rw [hl] at hk
      simp at hk
    | none =>
      rw [hl] at hk
      have hk2 : k ∈ (evictLoopRA c.contracts.length c now size).2 := hk
      exact evictLoopRA_evicted_safe c.contracts.length c now size hk2
  · intro c now retain k hk
    have hk2 : k ∈ (sweepLoop c.contracts.length c now retain).2 := hk
    exact sweepLoop_evicted_safe c.contracts.length c now retain hk2
  · intro c now key size a hprot hl
    have hloop : evictLoopRA c.contracts.length c now size = (c, []) :=
      evictLoopRA_all_protected hprot c.contracts.length
    unfold record_access
    rw [hl]
    dsimp only
    rw [hloop]
    refine ⟨rfl, rfl, ?_, rfl⟩
    exact lookup_append_singleton hl

section

set_option allowUnsafeReducibility true

attribute [local semireducible] Rat.sub Rat.add Rat.mul Rat.div Rat.inv

/-- C2 witness: a concrete cache whose sole entry is inside `min_ttl`, so
admitting a new 100-byte contract evicts nothing and pushes
`current_bytes` past the 150-byte budget. -/
theorem c2_ttl_protection_witness :
    ((record_access
        ⟨150, 100, 60, [[1]],
          [([1], ⟨100, 0, AccessType.Get, CommitmentState.default, IdentityState.default, 0, 0⟩)],
          CWPConfig.default⟩
        30 [2] 100 AccessType.Get).2.is_new = true ∧
      (record_access
        ⟨150, 100, 60, [[1]],
          [([1], ⟨100, 0, AccessType.Get, CommitmentState.default, IdentityState.default, 0, 0⟩)],
          CWPConfig.default⟩
        30 [2] 100 AccessType.Get).2.evicted = [] ∧
      (record_access
        ⟨150, 100, 60, [[1]],
          [([1], ⟨100, 0, AccessType.Get, CommitmentState.default, IdentityState.default, 0, 0⟩)],
          CWPConfig.default⟩
        30 [2] 100 AccessType.Get).1.contracts.lookup [2] =
        some ⟨100, 30, AccessType.Get, CommitmentState.default, IdentityState.default, 0, 0⟩ ∧
      (record_access
        ⟨150, 100, 60, [[1]],
          [([1], ⟨100, 0, AccessType.Get, CommitmentState.default, IdentityState.default, 0, 0⟩)],
          CWPConfig.default⟩
        30 [2] 100 AccessType.Get).1.current_bytes = satAdd64 100 100) :=
  c2_ttl_protection.2.2
    ⟨150, 100, 60, [[1]],
      [([1], ⟨100, 0, AccessType.Get, CommitmentState.default, IdentityState.default, 0, 0⟩)],
      CWPConfig.default⟩
    30 [2] 100 AccessType.Get (by decide) (by decide)

end

/-- C9: `record_access` on a key already present refreshes in place: it
reports `is_new = false` and evicts nothing, whatever the new size. -/
theorem c9_refresh_never_evicts {c : HostingCache} {now : ℚ} {key : ContractKey}
    {size : Nat} {a : AccessType} {hc : HostedContract}
    (h : c.contracts.lookup key = some hc) :
    (record_access c now key size a).2.is_new = false ∧
      (record_access c now key size a).2.evicted = [] := by
  unfold record_access
  rw [h]
  exact ⟨rfl, rfl⟩

/-- C9 witness: growing an existing 100-byte entry to a billion bytes in a
150-byte-budget cache still refreshes in place with no eviction. -/
theorem c9_refresh_never_evicts_witness :
    (record_access
        ⟨150, 100, 60, [[1]],
          [([1], ⟨100, 0, AccessType.Get, CommitmentState.default, IdentityState.default, 0, 0⟩)],
          CWPConfig.default⟩
        5 [1] 1000000000 AccessType.Put).2.is_new = false ∧
      (record_access
        ⟨150, 100, 60, [[1]],
          [([1], ⟨100, 0, AccessType.Get, CommitmentState.default, IdentityState.default, 0, 0⟩)],
          CWPConfig.default⟩
        5 [1] 1000000000 AccessType.Put).2.evicted = [] :=
  c9_refresh_never_evicts
    (show ([([1],
        (⟨100, 0, AccessType.Get, CommitmentState.default, IdentityState.default, 0,
          0⟩ : HostedContract))] :
          List (ContractKey × HostedContract)).lookup [1] =
        some ⟨100, 0, AccessType.Get, CommitmentState.default, IdentityState.default, 0, 0⟩
      by decide)

/-- C3 (amended): `touch` on a present key resets `last_accessed` to the
current instant (and only that field of the entry), leaves every other
key's entry and the cache accounting unchanged. Because `recency_score`
reads `last_accessed`, this does refresh the recency sub-score, exactly as
an access would; only `access_type` and the size/counters are untouched. -/
theorem c3_touch_updates_only_timestamp {c : HostingCache} {now : ℚ} {key : ContractKey}
    {hc : HostedContract} (h : c.contracts.lookup key = some hc) :
    (touch c now key).contracts.lookup key = some { hc with last_accessed := now } ∧
      (∀ k', k' ≠ key → (touch c now key).contracts.lookup k' = c.contracts.lookup k') ∧
      (touch c now key).budget_bytes = c.budget_bytes ∧
      (touch c now key).current_bytes = c.current_bytes ∧
      (touch c now key).min_ttl = c.min_ttl := by
  unfold touch
  rw [h]
  refine ⟨?_, ?_, rfl, rfl, rfl⟩
  · exact lookup_replaceEntry_self h
  · intro k' hk'
    exact lookup_replaceEntry_ne hk'

/-- C3 witness: touching the single entry of a concrete cache at instant
100 leaves everything but its `last_accessed` unchanged. -/
theorem c3_touch_updates_only_timestamp_witness :
    (touch
        ⟨1000, 100, 60, [[1]],
          [([1], ⟨100, 0, AccessType.Get, CommitmentState.default, IdentityState.default, 0, 0⟩)],
          CWPConfig.default⟩
        100 [1]).contracts.lookup [1] =
      some ⟨100, 100, AccessType.Get, CommitmentState.default, IdentityState.default, 0, 0⟩ :=
  (c3_touch_updates_only_timestamp
    (show ([([1],
        (⟨100, 0, AccessType.Get, CommitmentState.default, IdentityState.default, 0,
          0⟩ : HostedContract))] :
          List (ContractKey × HostedContract)).lookup [1] =
        some ⟨100, 0, AccessType.Get, CommitmentState.default, IdentityState.default, 0, 0⟩
      by decide)).1

section

set_option allowUnsafeReducibility true

attribute [local semireducible] Rat.sub Rat.add Rat.mul Rat.div Rat.inv

/-- C3 counterexample: the claim says `touch` leaves the recency sub-score
unchanged at any later instant. In the code `touch` resets
`last_accessed`, which `recency_score` reads, so after touching at
instant 100 the entry's recency score at instant 200 differs from the
untouched one. -/
theorem c3_counterexample :
    ((touch
        ⟨1000, 100, 60, [[1]],
          [([1], ⟨100, 0, AccessType.Get, CommitmentState.default, IdentityState.default, 0, 0⟩)],
          CWPConfig.default⟩
        100 [1]).contracts.lookup [1]).map
        (fun e => e.recency_score 200 CWPConfig.default) ≠
      (([([1],
          (⟨100, 0, AccessType.Get, CommitmentState.default, IdentityState.default, 0,
            0⟩ : HostedContract))] :
            List (ContractKey × HostedContract)).lookup [1]).map
        (fun e => e.recency_score 200 CWPConfig.default) := by
  decide

end

/-- C5: a victim chosen by `find_lowest_score_victim_with_retain` (the
selection used by both `record_access` and `sweep_expired`) is an eligible
entry (age at least `min_ttl`, not retained) that is strictly below every
other eligible entry in the lexicographic order (lower persistence score,
tie-broken by older `last_accessed`, then by smaller key bytes); in
particular, among eligible entries with equal score and equal
`last_accessed` the victim has the smallest key bytes. -/
theorem c5_victim_is_lex_minimum {c : HostingCache} {now : ℚ} {retain : ContractKey → Bool}
    {vk : ContractKey}
    (hvic : find_lowest_score_victim_with_retain c now retain = some vk) :
    ∃ hc, (vk, hc) ∈ c.contracts ∧ eligibleB c now retain (vk, hc) = true ∧
      (∀ kv ∈ c.contracts, eligibleB c now retain kv = true → kv.1 ≠ vk →
        candLt (victimCand c now (vk, hc)) (victimCand c now kv) = true) ∧
      (∀ kv ∈ c.contracts, eligibleB c now retain kv = true → kv.1 ≠ vk →
        kv.2.persistence_score now c.cwp_config = hc.persistence_score now c.cwp_config →
        kv.2.last_accessed = hc.last_accessed → byteLtB vk kv.1 = true) := by
  obtain ⟨hc, hmem, helig, hmin⟩ := find_victim_mem hvic
  have hlt : ∀ kv ∈ c.contracts, eligibleB c now retain kv = true → kv.1 ≠ vk →
      candLt (victimCand c now (vk, hc)) (victimCand c now kv) = true := by
    intro kv hkv he hne
    have h1 := hmin kv hkv he
    have hne2 : (victimCand c now (vk, hc)).2.2 ≠ (victimCand c now kv).2.2 := by
      simpa [victimCand] using Ne.symm hne
    rcases candLt_total_ne (Ne.symm hne2) with h2 | h2
    · rw [h1] at h2
      exact absurd h2 (by simp)
    · exact h2
  refine ⟨hc, hmem, helig, hlt, ?_⟩
  intro kv hkv he hne hscore htime
  have h2 := hlt kv hkv he hne
  rw [candLt_iff] at h2
  rcases h2 with h2 | ⟨e1, h2⟩
  · exfalso
    have h3 : hc.persistence_score now c.cwp_config <
        kv.2.persistence_score now c.cwp_config := h2
    rw [hscore] at h3
    exact lt_irrefl _ h3
  · rcases h2 with h2 | ⟨e2, h2⟩
    · exfalso
      have h3 : hc.last_accessed < kv.2.last_accessed := h2
      rw [htime] at h3
      exact lt_irrefl _ h3
    · exact h2

section
set_option allowUnsafeReducibility true
attribute [local semireducible] Rat.sub Rat.add Rat.mul Rat.div Rat.inv Rat.ofScientific

theorem c5_victim_is_lex_minimum_witness :
    ∃ hc, (([1], hc) ∈
        (⟨1000, 200, 0, [[1], [2]],
          [([1], ⟨100, 0, AccessType.Get, CommitmentState.default, IdentityState.default, 0, 0⟩),
           ([2], ⟨100, 0, AccessType.Get, CommitmentState.default, IdentityState.default, 0, 0⟩)],
          CWPConfig.default⟩ : HostingCache).contracts) ∧
      eligibleB
        ⟨1000, 200, 0, [[1], [2]],
          [([1], ⟨100, 0, AccessType.Get, CommitmentState.default, IdentityState.default, 0, 0⟩),
           ([2], ⟨100, 0, AccessType.Get, CommitmentState.default, IdentityState.default, 0, 0⟩)],
          CWPConfig.default⟩ 0 (fun _ => false) ([1], hc) = true ∧
      (∀ kv ∈ (⟨1000, 200, 0, [[1], [2]],
          [([1], ⟨100, 0, AccessType.Get, CommitmentState.default, IdentityState.default, 0, 0⟩),
           ([2], ⟨100, 0, AccessType.Get, CommitmentState.default, IdentityState.default, 0, 0⟩)],
          CWPConfig.default⟩ : HostingCache).contracts,
        eligibleB
          ⟨1000, 200, 0, [[1], [2]],
            [([1], ⟨100, 0, AccessType.Get, CommitmentState.default, IdentityState.default, 0, 0⟩),
             ([2], ⟨100, 0, AccessType.Get, CommitmentState.default, IdentityState.default, 0, 0⟩)],
            CWPConfig.default⟩ 0 (fun _ => false) kv = true → kv.1 ≠ [1] →
        candLt
          (victimCand
            ⟨1000, 200, 0, [[1], [2]],
              [([1], ⟨100, 0, AccessType.Get, CommitmentState.default, IdentityState.default, 0, 0⟩),
               ([2], ⟨100, 0, AccessType.Get, CommitmentState.default, IdentityState.default, 0, 0⟩)],
              CWPConfig.default⟩ 0 ([1], hc))
          (victimCand
            ⟨1000, 200, 0, [[1], [2]],
              [([1], ⟨100, 0, AccessType.Get, CommitmentState.default, IdentityState.default, 0, 0⟩),
               ([2], ⟨100, 0, AccessType.Get, CommitmentState.default, IdentityState.default, 0, 0⟩)],
              CWPConfig.default⟩ 0 kv) = true) ∧
      (∀ kv ∈ (⟨1000, 200, 0, [[1], [2]],
          [([1], ⟨100, 0, AccessType.Get, CommitmentState.default, IdentityState.default, 0, 0⟩),
           ([2], ⟨100, 0, AccessType.Get, CommitmentState.default, IdentityState.default, 0, 0⟩)],
          CWPConfig.default⟩ : HostingCache).contracts,
        eligibleB
          ⟨1000, 200, 0, [[1], [2]],
            [([1], ⟨100, 0, AccessType.Get, CommitmentState.default, IdentityState.default, 0, 0⟩),
             ([2], ⟨100, 0, AccessType.Get, CommitmentState.default, IdentityState.default, 0, 0⟩)],
            CWPConfig.default⟩ 0 (fun _ => false) kv = true → kv.1 ≠ [1] →
        kv.2.persistence_score 0 CWPConfig.default = hc.persistence_score 0 CWPConfig.default →
        kv.2.last_accessed = hc.last_accessed → byteLtB [1] kv.1 = true) :=
  c5_victim_is_lex_minimum
    (show find_lowest_score_victim_with_retain
        ⟨1000, 200, 0, [[1], [2]],
          [([1], ⟨100, 0, AccessType.Get, CommitmentState.default, IdentityState.default, 0, 0⟩),
           ([2], ⟨100, 0, AccessType.Get, CommitmentState.default, IdentityState.default, 0, 0⟩)],
          CWPConfig.default⟩ 0 (fun _ => false) = some [1] by decide)

end

/-- C1: under guarded reachability (accepted state replacements are
well-formed and applied proofs merge without `i128` wrap), every state
reachable from the empty map by `update_state` calls is strictly sorted by
`contract_id` with every `total_deposited` in `[0, 2^127)`; and whenever a
call returns a map different from its input (so something changed), the
version strictly increases, provided the relevant versions do not overflow
`u64`. The unguarded form of the claim is refuted by
`c1_counterexample`: a state replacement is accepted without validation. -/
theorem c1_guarded_invariants :
    (∀ m, ReachableG m → MapInv m) ∧
    (∀ m us m', m.version + 1 < 2 ^ 64 →
      (∀ inc, UpdateData.stateUpd (some inc) ∈ us → inc.version + 1 < 2 ^ 64) →
      update_state m us = some m' → m' ≠ m → m.version < m'.version) := by
  constructor
  · intro m h
    exact reachable_inv h
  · intro m us m' hv hinc hu hne
    unfold update_state at hu
    cases hc : update_state_core m false us with
    | none => rw [hc] at hu; simp at hu
    | some r =>
      obtain ⟨mid, chg⟩ := r
      rw [hc] at hu
      simp at hu
      cases chg with
      | false =>
        exfalso
        have hmid : mid = m := core_false_unchanged us hc
        simp at hu
        exact hne (by rw [← hu, hmid])
      | true =>
        simp at hu
        have hge : m.version ≤ mid.version := core_version_ge us hc
        have hlt : mid.version + 1 < 2 ^ 64 := by
          rcases core_version_provenance us hc with hp | ⟨inc, hmem, hp⟩
          · rw [hp]; exact hv
          · rw [hp]; exact hinc inc hmem
        rw [← hu]
        show m.version < (bumpVersion mid).version
        simp only [bumpVersion]
        rw [Nat.mod_eq_of_lt hlt]
        omega

/-- C1 counterexample: a `State` update is accepted with no validation at
all, so a single `update_state` call from the empty map reaches a state
whose only entry has a negative `total_deposited` (and a non-hex
`contract_id`), refuting the claimed invariant for arbitrary update
sequences. -/
theorem c1_counterexample :
    update_state DepositMap.empty
      [UpdateData.stateUpd (some ⟨1, 0, [⟨"zz", -1, 0⟩]⟩)] =
      some ⟨2, 0, [⟨"zz", -1, 0⟩]⟩ ∧
    ∃ e ∈ ([⟨"zz", -1, 0⟩] : List DepositEntry), e.total_deposited < 0 := by
  decide

theorem c1_guarded_invariants_witness :
    MapInv DepositMap.empty ∧
      DepositMap.empty.version < (⟨2, 0, []⟩ : DepositMap).version :=
  ⟨c1_guarded_invariants.1 DepositMap.empty ReachableG.init,
    c1_guarded_invariants.2 DepositMap.empty
      [UpdateData.stateUpd (some ⟨1, 0, []⟩)] ⟨2, 0, []⟩
      (by decide)
      (by
        intro inc hmem
        simp at hmem
        rw [hmem]
        decide)
      (by decide) (by decide)⟩

/-- C6: the update loop threads a single `changed` flag and never touches
`version`; `update_state` bumps the version exactly once, at the end, iff
that flag is set, and the flag is set iff at least one update (fresh proof
with a working pipeline, or accepted state replacement) changed the map.
In particular a call consisting only of deposit proofs leaves the loop's
final version equal to the input version, so any number of changing proofs
yields exactly one increment. -/
theorem c6_single_version_bump {m : DepositMap} {us : List UpdateData}
    {mid : DepositMap} {chg : Bool}
    (h : update_state_core m false us = some (mid, chg)) :
    update_state m us = some (if chg then bumpVersion mid else mid) ∧
      chg = AnyChangedB m us ∧
      ((∀ u ∈ us, IsDelta u = true) → mid.version = m.version) := by
  refine ⟨?_, ?_, ?_⟩
  · unfold update_state
    rw [h]
  · have h2 := core_changed_iff us h
    simpa using h2
  · intro hall
    exact core_delta_version us hall h

theorem c6_single_version_bump_witness :
    update_state DepositMap.empty
        [UpdateData.delta (some ⟨1, some []⟩), UpdateData.delta (some ⟨2, some []⟩)] =
      some (if true then bumpVersion ⟨0, 2, []⟩ else ⟨0, 2, []⟩) ∧
      true = AnyChangedB DepositMap.empty
        [UpdateData.delta (some ⟨1, some []⟩), UpdateData.delta (some ⟨2, some []⟩)] ∧
      ((∀ u ∈ [UpdateData.delta (some ⟨1, some []⟩), UpdateData.delta (some ⟨2, some []⟩)],
          IsDelta u = true) →
        (⟨0, 2, []⟩ : DepositMap).version = DepositMap.empty.version) :=
  c6_single_version_bump
    (show update_state_core DepositMap.empty false
        [UpdateData.delta (some ⟨1, some []⟩), UpdateData.delta (some ⟨2, some []⟩)] =
        some (⟨0, 2, []⟩, true) by decide)

/-- A proof application that reports a change leaves `last_ledger_seq`
equal to the proof's ledger sequence. -/
theorem apply_proof_true_ledger {p : DepositProof} {m ma : DepositMap}
    (h : apply_proof p m = some (ma, true)) : ma.last_ledger_seq = p.ledger_seq := by
  unfold apply_proof at h
  split_ifs at h with hstale
  · simp at h
  · cases hp : p.pipeline with
    | none => rw [hp] at h; simp at h
    | some ds =>
      rw [hp] at h
      dsimp only at h
      split_ifs at h with hempty
      · simp at h
        rw [← h]
      · simp at h
        rw [← h]

/-- C7: applying the same deposit proof twice — in two successive
`update_state` calls or doubled inside one call — produces the same final
map as applying it once, because the staleness gate
(`proof.ledger_seq ≤ map.last_ledger_seq`) skips the repeat; moreover a
proof that is already stale for the input map leaves the map unchanged. -/
theorem c7_proof_idempotent {m : DepositMap} {p : DepositProof} {m1 : DepositMap}
    (h : update_state m [UpdateData.delta (some p)] = some m1) :
    update_state m1 [UpdateData.delta (some p)] = some m1 ∧
      update_state m [UpdateData.delta (some p), UpdateData.delta (some p)] = some m1 ∧
      (p.ledger_seq ≤ m.last_ledger_seq → m1 = m) := by
  cases hap : apply_proof p m with
  | none =>
    have h1 : update_state m [UpdateData.delta (some p)] = some m := by
      simp [update_state, update_state_core, hap]
    rw [h1] at h
    simp at h
    subst h
    refine ⟨h1, ?_, fun _ => rfl⟩
    simp [update_state, update_state_core, hap]
  | some r =>
    obtain ⟨ma, c⟩ := r
    cases c with
    | false =>
      have hma : ma = m := apply_proof_false_eq hap
      rw [hma] at hap
      have h1 : update_state m [UpdateData.delta (some p)] = some m := by
        simp [update_state, update_state_core, hap]
      rw [h1] at h
      simp at h
      subst h
      refine ⟨h1, ?_, fun _ => rfl⟩
      simp [update_state, update_state_core, hap]
    | true =>
      have hll : ma.last_ledger_seq = p.ledger_seq := apply_proof_true_ledger hap
      have hcomp : update_state m [UpdateData.delta (some p)] = some (bumpVersion ma) := by
        simp [update_state, update_state_core, hap]
      rw [hcomp] at h
      simp at h
      have hapa : apply_proof p ma = some (ma, false) := by
        unfold apply_proof
        rw [if_pos (le_of_eq hll.symm)]
      have hstale1 : p.ledger_seq ≤ m1.last_ledger_seq := by
        rw [← h]
        show p.ledger_seq ≤ ma.last_ledger_seq
        exact le_of_eq hll.symm
      have hap1 : apply_proof p m1 = some (m1, false) := by
        unfold apply_proof
        rw [if_pos hstale1]
      refine ⟨?_, ?_, ?_⟩
      · simp [update_state, update_state_core, hap1]
      · rw [← h]
        simp [update_state, update_state_core, hap, hapa]
      · intro hs
        exfalso
        unfold apply_proof at hap
        rw [if_pos hs] at hap
        simp at hap

theorem c7_proof_idempotent_witness :
    update_state ⟨1, 1, []⟩ [UpdateData.delta (some ⟨1, some []⟩)] = some ⟨1, 1, []⟩ ∧
      update_state DepositMap.empty
        [UpdateData.delta (some ⟨1, some []⟩), UpdateData.delta (some ⟨1, some []⟩)] =
        some ⟨1, 1, []⟩ ∧
      ((⟨1, some []⟩ : DepositProof).ledger_seq ≤ DepositMap.empty.last_ledger_seq →
        (⟨1, 1, []⟩ : DepositMap) = DepositMap.empty) :=
  c7_proof_idempotent
    (show update_state DepositMap.empty [UpdateData.delta (some ⟨1, some []⟩)] =
      some ⟨1, 1, []⟩ by decide)

/-- C4 counterexample: with 5 single-validator organizations and the
default threshold, the code requires `5 * 2 / 3 + 1 = 4` org majorities
while the claimed formula `⌊5/3⌋ * 2 + 1` asks only 3; three agreeing org
majorities therefore satisfy the claimed threshold but the quorum check
still rejects. -/
theorem c4_counterexample :
    quorum_threshold
      ⟨"", [⟨"o1", [String.mk (List.replicate 64 '1')]⟩,
            ⟨"o2", [String.mk (List.replicate 64 '2')]⟩,
            ⟨"o3", [String.mk (List.replicate 64 '3')]⟩,
            ⟨"o4", [String.mk (List.replicate 64 '4')]⟩,
            ⟨"o5", [String.mk (List.replicate 64 '5')]⟩], 0, ""⟩ = 4 ∧
      5 / 3 * 2 + 1 = 3 ∧
      orgs_with_majority
        ⟨"", [⟨"o1", [String.mk (List.replicate 64 '1')]⟩,
              ⟨"o2", [String.mk (List.replicate 64 '2')]⟩,
              ⟨"o3", [String.mk (List.replicate 64 '3')]⟩,
              ⟨"o4", [String.mk (List.replicate 64 '4')]⟩,
              ⟨"o5", [String.mk (List.replicate 64 '5')]⟩], 0, ""⟩
        [(List.replicate 32 17, []), (List.replicate 32 34, []),
         (List.replicate 32 51, [])] = 3 ∧
      check_quorum
        ⟨"", [⟨"o1", [String.mk (List.replicate 64 '1')]⟩,
              ⟨"o2", [String.mk (List.replicate 64 '2')]⟩,
              ⟨"o3", [String.mk (List.replicate 64 '3')]⟩,
              ⟨"o4", [String.mk (List.replicate 64 '4')]⟩,
              ⟨"o5", [String.mk (List.replicate 64 '5')]⟩], 0, ""⟩
        [(List.replicate 32 17, []), (List.replicate 32 34, []),
         (List.replicate 32 51, [])] = none := by
  decide

/-- C4 (amended): with `quorum_org_threshold = 0` the effective threshold
is `orgs * 2 / 3 + 1` (not `⌊orgs/3⌋ * 2 + 1`; see `c4_counterexample`),
and for a non-empty signer list agreeing on one tx-set hash the quorum
check succeeds iff the number of organizations with a validator majority
reaches that threshold. -/
theorem c4_default_threshold {params : DepositIndexParams}
    {s0 : List Nat × List Nat} {rest : List (List Nat × List Nat)}
    (h0 : params.quorum_org_threshold = 0)
    (hagree : ∀ sh ∈ s0 :: rest, sh.2 = s0.2) :
    quorum_threshold params = params.organizations.length * 2 / 3 + 1 ∧
      ((check_quorum params (s0 :: rest)).isSome ↔
        quorum_threshold params ≤ orgs_with_majority params (s0 :: rest)) := by
  constructor
  · unfold quorum_threshold
    rw [if_pos h0]
  · have hall : (s0 :: rest).all (fun sh => decide (sh.2 = s0.2)) = true := by
      rw [List.all_eq_true]
      intro x hx
      exact decide_eq_true (hagree x hx)
    simp only [check_quorum]
    rw [hall]
    simp only [if_true]
    split_ifs with hlt
    · simp
      omega
    · simp
      omega

theorem c4_default_threshold_witness :
    quorum_threshold ⟨"", [⟨"o", [String.mk (List.replicate 64 '1')]⟩], 0, ""⟩ =
      ((⟨"", [⟨"o", [String.mk (List.replicate 64 '1')]⟩], 0, ""⟩ :
        DepositIndexParams)).organizations.length * 2 / 3 + 1 ∧
      ((check_quorum ⟨"", [⟨"o", [String.mk (List.replicate 64 '1')]⟩], 0, ""⟩
          [(List.replicate 32 17, [7])]).isSome ↔
        quorum_threshold ⟨"", [⟨"o", [String.mk (List.replicate 64 '1')]⟩], 0, ""⟩ ≤
          orgs_with_majority ⟨"", [⟨"o", [String.mk (List.replicate 64 '1')]⟩], 0, ""⟩
            [(List.replicate 32 17, [7])]) :=
  c4_default_threshold rfl
    (by
      intro sh hm
      simp at hm
      rw [hm])

/-- C8 counterexample: `u8::from_str_radix(_, 16)` accepts uppercase hex
digits, so a parsed map whose only entry has a 64-character uppercase
contract id is judged `Valid`, refuting the "lowercase hex" reading of the
claim. -/
theorem c8_counterexample :
    validate_state (StateInput.parsed
      ⟨1, 0, [⟨String.mk (List.replicate 64 'A'), 1, 0⟩]⟩) =
      some ValidateResult.Valid := by
  decide

/-- C8 (amended): `validate_state` does return `Invalid` whenever some
entry's contract id is not 64 characters or fails to hex-decode to 32
bytes; the check is case-insensitive, not lowercase-only
(`c8_counterexample`). -/
theorem c8_contract_id_checks {m : DepositMap} {e : DepositEntry}
    (hmem : e ∈ m.deposits)
    (hbad : e.contract_id.length ≠ 64 ∨ hex_decode_32 e.contract_id = none) :
    validate_state (StateInput.parsed m) = some ValidateResult.Invalid := by
  have hek : entryOk e = false := by
    unfold entryOk
    rcases hbad with hb | hb
    · simp [hb]
    · simp [hb]
  have hall : m.deposits.all entryOk = false := by
    rw [List.all_eq_false]
    exact ⟨e, hmem, by simp [hek]⟩
  unfold validate_state
  dsimp only
  rw [hall, Bool.and_false]
  rfl

theorem c8_contract_id_checks_witness :
    validate_state (StateInput.parsed ⟨1, 0, [⟨"zz", 0, 0⟩]⟩) =
      some ValidateResult.Invalid :=
  c8_contract_id_checks
    (show (⟨"zz", 0, 0⟩ : DepositEntry) ∈
      (⟨1, 0, [⟨"zz", 0, 0⟩]⟩ : DepositMap).deposits by decide)
    (Or.inl (by decide))

/-- Prepending an element already in the list does not change `List.any`. -/
theorem any_mem_cons {α : Type} {s : α} {vs : List α} (h : s ∈ vs) (p : α → Bool) :
    (s :: vs).any p = vs.any p := by
  cases hv : vs.any p with
  | true => rw [List.any_cons, hv, Bool.or_true]
  | false =>
    rw [List.any_cons, hv, Bool.or_false]
    rw [List.any_eq_false] at hv
    exact Bool.eq_false_iff.mpr (hv s h)

/-- A duplicated signer pair does not change an org's signer count: the
`any` membership test already absorbs it. -/
theorem count_org_signers_dup {org : ValidatorOrg} {s : List Nat × List Nat}
    {vs : List (List Nat × List Nat)} (h : s ∈ vs) :
    count_org_signers org (s :: vs) = count_org_signers org vs := by
  unfold count_org_signers
  have hfun : (fun (count : Nat) (vhex : String) =>
      match hex_decode_32 vhex with
      | some vk => if (s :: vs).any (fun sh => decide (sh.1 = vk)) then count + 1 else count
      | none => count) =
      (fun (count : Nat) (vhex : String) =>
        match hex_decode_32 vhex with
        | some vk => if vs.any (fun sh => decide (sh.1 = vk)) then count + 1 else count
        | none => count) := by
    funext count vhex
    cases hv : hex_decode_32 vhex with
    | none => rfl
    | some vk =>
      dsimp only
      rw [any_mem_cons h (fun sh => decide (sh.1 = vk))]
  rw [hfun]

/-- A duplicated signer pair does not change the org-majority count. -/
theorem orgs_with_majority_dup {params : DepositIndexParams} {s : List Nat × List Nat}
    {vs : List (List Nat × List Nat)} (h : s ∈ vs) :
    orgs_with_majority params (s :: vs) = orgs_with_majority params vs := by
  unfold orgs_with_majority
  have hfun : (fun (acc : Nat) (org : ValidatorOrg) =>
      if count_org_signers org (s :: vs) ≥ org.validators.length / 2 + 1 then acc + 1
      else acc) =
      (fun (acc : Nat) (org : ValidatorOrg) =>
        if count_org_signers org vs ≥ org.validators.length / 2 + 1 then acc + 1
        else acc) := by
    funext acc org
    rw [count_org_signers_dup h]
  rw [hfun]

/-- C10: a duplicated valid signer pair (the same validator key signing the
same tx-set hash again) changes nothing: each org's signer count, the
org-majority count, and the accept/reject outcome of `check_quorum` are the
same as with the signer listed once. -/
theorem c10_duplicate_signer {params : DepositIndexParams} {org : ValidatorOrg}
    {s : List Nat × List Nat} {vs : List (List Nat × List Nat)} (h : s ∈ vs) :
    count_org_signers org (s :: vs) = count_org_signers org vs ∧
      orgs_with_majority params (s :: vs) = orgs_with_majority params vs ∧
      check_quorum params (s :: vs) = check_quorum params vs := by
  refine ⟨count_org_signers_dup h, orgs_with_majority_dup h, ?_⟩
  cases vs with
  | nil => cases h
  | cons t rest =>
    have hm : orgs_with_majority params (s :: t :: rest) =
        orgs_with_majority params (t :: rest) := orgs_with_majority_dup h
    cases hB : (t :: rest).all (fun sh => decide (sh.2 = t.2)) with
    | true =>
      have hs2 : s.2 = t.2 := of_decide_eq_true (List.all_eq_true.mp hB s h)
      have hA : (s :: t :: rest).all (fun sh => decide (sh.2 = s.2)) = true := by
        rw [List.all_eq_true]
        intro x hx
        rcases List.mem_cons.mp hx with hx1 | hx1
        · rw [hx1]
          exact decide_eq_true rfl
        · have hx2 : x.2 = t.2 := of_decide_eq_true (List.all_eq_true.mp hB x hx1)
          exact decide_eq_true (by rw [hx2, hs2])
      simp only [check_quorum, hA, hB, if_true]
      rw [hm, hs2]
    | false =>
      have hA : (s :: t :: rest).all (fun sh => decide (sh.2 = s.2)) = false := by
        cases hA2 : (s :: t :: rest).all (fun sh => decide (sh.2 = s.2)) with
        | false => rfl
        | true =>
          exfalso
          have hall := List.all_eq_true.mp hA2
          have ht2 : t.2 = s.2 := of_decide_eq_true (hall t (by simp))
          rw [List.all_eq_false] at hB
          obtain ⟨x, hx, hpx⟩ := hB
          have hx2 : x.2 = s.2 :=
            of_decide_eq_true (hall x (List.mem_cons_of_mem s hx))
          exact hpx (decide_eq_true (by rw [hx2, ← ht2]))
      simp only [check_quorum, hA, hB]
      simp

theorem c10_duplicate_signer_witness :
    count_org_signers ⟨"o", [String.mk (List.replicate 64 '1')]⟩
        [(List.replicate 32 17, [7]), (List.replicate 32 17, [7])] =
      count_org_signers ⟨"o", [String.mk (List.replicate 64 '1')]⟩
        [(List.replicate 32 17, [7])] ∧
      orgs_with_majority ⟨"", [⟨"o", [String.mk (List.replicate 64 '1')]⟩], 0, ""⟩
          [(List.replicate 32 17, [7]), (List.replicate 32 17, [7])] =
        orgs_with_majority ⟨"", [⟨"o", [String.mk (List.replicate 64 '1')]⟩], 0, ""⟩
          [(List.replicate 32 17, [7])] ∧
      check_quorum ⟨"", [⟨"o", [String.mk (List.replicate 64 '1')]⟩], 0, ""⟩
          [(List.replicate 32 17, [7]), (List.replicate 32 17, [7])] =
        check_quorum ⟨"", [⟨"o", [String.mk (List.replicate 64 '1')]⟩], 0, ""⟩
          [(List.replicate 32 17, [7])] :=
  c10_duplicate_signer (by decide)
